import Mathlib

/-!
Music-library aggregation model of the audio player.

A shallow embedding of `src/js/renderer/main/model/Artist.js`.

* JavaScript strings are sequences of UTF-16 code units (`JSString`); `===` on
  strings is equality of the sequences and `<` is the lexicographic order on
  code units.
* Mutable objects become values; a method that mutates `this` returns the
  new state next to its JavaScript return value.  An array of objects that is
  mutated through a reference found by a linear search (`Artist.findByMusic`,
  `Album.findByMusic`) becomes an update of the first matching position.
* `Array.prototype.sort(compare)` is the stable sort: insertion sort with the
  relation `compare a b ≤ 0`.  This is the order the engine leaves for a
  consistent comparator, one whose sign is antisymmetric and whose `≤ 0` is
  transitive (`TotalPreorder`); for any other comparator the engine's order is
  implementation-defined and only the fact that the result is a permutation is
  relied on.
* `String.prototype.toLowerCase` (the Unicode case table of the runtime) and
  `Album.compare` (`Album.js` is not among the sources at hand) are
  parameters of the development.
-/

namespace AudioPlayer

/-! ## JavaScript strings -/

/-- A JavaScript string value: its sequence of UTF-16 code units. -/
abbrev JSString := List Nat

/-- UTF-16 code units of one Unicode scalar value. -/
def utf16 (c : Char) : List Nat :=
  if c.toNat < 0x10000 then [c.toNat]
  else [0xD800 + (c.toNat - 0x10000) / 0x400, 0xDC00 + (c.toNat - 0x10000) % 0x400]

/-- The JavaScript string written by a literal. -/
def js (s : String) : JSString := s.data.flatMap utf16

/-- The relational operator `<` on two strings: the first differing code unit
decides, a proper prefix is smaller. -/
def jsLt : JSString → JSString → Bool
  | [], [] => false
  | [], _ :: _ => true
  | _ :: _, [] => false
  | x :: xs, y :: ys => if x < y then true else if y < x then false else jsLt xs ys

/-- The call `s.replace(pat, rep)` with a string pattern: the first occurrence
of `pat` in `s`, if any, is replaced by `rep` (taken literally, as it is for
the empty replacement the source passes). -/
def replace (pat rep : JSString) : JSString → JSString
  | [] => if pat.isEmpty then rep else []
  | c :: cs =>
    if pat.isPrefixOf (c :: cs) then rep ++ (c :: cs).drop pat.length
    else c :: replace pat rep cs

/-- Lower-casing of the ASCII letters `A`..`Z`, every other code unit kept:
what `toLowerCase` does on a string of ASCII code units. -/
def asciiLower (s : JSString) : JSString :=
  s.map (fun u => if 65 ≤ u ∧ u ≤ 90 then u + 32 else u)

/-- Every code unit of the string is ASCII. -/
def isAscii (s : JSString) : Prop := ∀ u ∈ s, u < 128

/-- The array method `sort(compare)`: stable, an element `a` stays before `b`
unless `compare a b > 0`. The engine decides on the sign of `compare`; this is
its result when the comparator is consistent (`compare a b < 0` exactly when
`compare b a > 0`, and `≤ 0` transitive). For a comparator that is not, the
engine's order is implementation-defined and the model stands only for the
fact that the result is a permutation of the array. -/
def sort {α : Type} (compare : α → α → Int) (l : List α) : List α :=
  l.insertionSort (fun a b => compare a b ≤ 0)

/-- In-place mutation of the first element of an array that satisfies `p`
(the object a linear search with `some` returns). -/
def updateFirst {α : Type} (p : α → Bool) (f : α → α) : List α → List α
  | [] => []
  | x :: xs => if p x then f x :: xs else x :: updateFirst p f xs

/-! ## Data model -/

/-- Path of an image file. -/
abbrev Image := JSString

/-- Truthiness of a value that is a string or `null`: `null` and the empty
string are falsy. -/
def truthy : Option Image → Bool
  | none => false
  | some s => !s.isEmpty

/-- `Fraction` of `TypeDef.js`. -/
structure Fraction where
  no : Nat
  of : Nat
deriving DecidableEq, Repr

/-- Modelled from the spec: the Track record of section 3 (`Music.js` is not
among the sources at hand); `Artist.js` reads `artist` and `album`. -/
structure Music where
  artist : JSString
  album : JSString
  title : JSString
  track : Fraction
  disk : Fraction
  picture : Option Image
  duration : Nat
deriving DecidableEq, Repr

/-- Modelled from the spec: the Album aggregate of section 3 (`Album.js` is
not among the sources at hand); `Artist.js` reads `artist`, `name` and
`image`. -/
structure Album where
  artist : JSString
  name : JSString
  musics : List Music
  image : Option Image
deriving DecidableEq, Repr

/-- State of an `Artist` object: `_name`, `_albums`, `_image`. -/
structure Artist where
  name : JSString
  albums : List Album
  image : Option Image
deriving DecidableEq, Repr

/-! ## Album (from the spec, section 4.2) -/

/-- Modelled from the spec: `new Album(artistName, name)` of `Album.js`,
created empty with no image. -/
def Album.new (artist name : JSString) : Album :=
  { artist := artist, name := name, musics := [], image := none }

/-- Modelled from the spec: the track order of `Album.js`, by disc number and
then track number, ascending. -/
def Music.compare (a b : Music) : Int :=
  if a.disk.no < b.disk.no then -1
  else if b.disk.no < a.disk.no then 1
  else if a.track.no < b.track.no then -1
  else if b.track.no < a.track.no then 1
  else 0

/-- Modelled from the spec: `Album.findByMusic` of `Album.js`, a linear search
for the album whose name equals `track.album`. -/
def Album.findByMusic (albums : List Album) (music : Music) : Option Album :=
  albums.find? (fun album => decide (music.album = album.name))

/-- Modelled from the spec: `Album.updateImage` of `Album.js`, the picture of
the first track in album order that has picture data, absent if none has. -/
def Album.updateImage (al : Album) : Album :=
  match al.musics.find? (fun m => m.picture.isSome) with
  | some m => { al with image := m.picture }
  | none => { al with image := none }

/-- Modelled from the spec: `Album.add` of `Album.js`. A track whose artist
or album differs from the album's is rejected with `false`; otherwise the
track is inserted, the tracks are sorted again and the image is recomputed. -/
def Album.add (al : Album) (music : Music) : Bool × Album :=
  if music.artist ≠ al.artist ∨ music.album ≠ al.name then (false, al)
  else (true, Album.updateImage { al with musics := sort Music.compare (al.musics ++ [music]) })

/-! ## Artist (`Artist.js`) -/

section ArtistModel

variable (toLowerCase : JSString → JSString) (albumCompare : Album → Album → Int)

/-- The constructor: `new Artist(name)`. -/
def Artist.new (name : JSString) : Artist :=
  { name := name, albums := [], image := none }

/-- The sort key of `Artist.compare`:
`name.toLowerCase().replace('the ', '')`. -/
def Artist.sortName (a : Artist) : JSString :=
  replace (js "the ") [] (toLowerCase a.name)

/-- The static method `Artist.compare`. -/
def Artist.compare (a b : Artist) : Int :=
  let nameA := Artist.sortName toLowerCase a
  let nameB := Artist.sortName toLowerCase b
  if nameA = nameB then 0 else (if jsLt nameA nameB then -1 else 1)

/-- The static method `Artist.findByMusic`. -/
def Artist.findByMusic (artists : List Artist) (music : Music) : Option Artist :=
  artists.find? (fun artist => decide (music.artist = artist.name))

/-- The method `updateImage`. -/
def Artist.updateImage (a : Artist) : Artist :=
  match a.albums.find? (fun album => truthy album.image) with
  | some album => { a with image := album.image }
  | none => { a with image := none }

/-- The method `add`: the return value and the state after the call. -/
def Artist.add (a : Artist) (album : Album) : Bool × Artist :=
  if album.artist ≠ a.name then (false, a)
  else (true, Artist.updateImage { a with albums := sort albumCompare (a.albums ++ [album]) })

/-- The method `remove`: the return value and the state after the call. -/
def Artist.remove (a : Artist) (album : Album) : Bool × Artist :=
  let albums := a.albums.filter (fun x => decide (x.name ≠ album.name))
  if albums.length = a.albums.length then (false, a)
  else (true, Artist.updateImage { a with albums := albums })

/-- The second half of the loop body of `fromMusics`, on the artist found or
created for `music`: the track goes to the album found by
`Album.findByMusic` (mutated in place), or to a new album that is then added
to the artist. -/
def Artist.putMusic (artist : Artist) (music : Music) : Artist :=
  match Album.findByMusic artist.albums music with
  | some _ =>
    { artist with
      albums := updateFirst (fun album => decide (music.album = album.name))
        (fun album => (album.add music).2) artist.albums }
  | none =>
    (Artist.add albumCompare artist ((Album.new artist.name music.album).add music).2).2

/-- The loop body of `fromMusics`: one track consumed. -/
def Artist.fromMusicsStep (artists : List Artist) (music : Music) : List Artist :=
  match Artist.findByMusic artists music with
  | some _ =>
    updateFirst (fun artist => decide (music.artist = artist.name))
      (fun artist => Artist.putMusic albumCompare artist music) artists
  | none =>
    artists ++ [Artist.putMusic albumCompare (Artist.new music.artist) music]

/-- The loop of `fromMusics`, before the final sort. -/
def Artist.collect (musics : List Music) : List Artist :=
  musics.foldl (Artist.fromMusicsStep albumCompare) []

/-- The static method `Artist.fromMusics`. -/
def Artist.fromMusics (musics : List Music) : List Artist :=
  sort (Artist.compare toLowerCase) (Artist.collect albumCompare musics)

end ArtistModel

/-- Every track held by the artists, album by album. -/
def allMusics (artists : List Artist) : List Music :=
  artists.flatMap (fun a => a.albums.flatMap Album.musics)

/-- The image an albums sequence determines when "absent" is read as `null`:
that of the first album whose image is not `null`. -/
def firstPresentImage : List Album → Option Image
  | [] => none
  | x :: xs =>
    match x.image with
    | some i => some i
    | none => firstPresentImage xs

/-- The image an albums sequence determines under the test `if (album.image)`:
that of the first album whose image is neither `null` nor the empty string. -/
def firstTruthyImage : List Album → Option Image
  | [] => none
  | x :: xs => if truthy x.image then x.image else firstTruthyImage xs

/-- Three-way comparison of two strings: `0`, `-1` or `1`. -/
def threeWay (x y : JSString) : Int :=
  if x = y then 0 else if jsLt x y then -1 else 1

/-- Removal of a leading occurrence of `pat` only. -/
def stripLeading (pat s : JSString) : JSString :=
  if pat.isPrefixOf s then s.drop pat.length else s

/-- The normalised name of the spec: lower-cased, then a leading `"the "`
removed. -/
def specSortName (toLowerCase : JSString → JSString) (a : Artist) : JSString :=
  stripLeading (js "the ") (toLowerCase a.name)

/-- Membership test of a track in the album `(artist, name)`. -/
def inAlbum (artist name : JSString) (t : Music) : Bool :=
  decide (t.artist = artist ∧ t.album = name)

/-- Grouping invariant of one artist against the tracks consumed so far: album
names are distinct, every album is owned by the artist, is not empty and holds
exactly the consumed tracks of its `(artist, album)` pair, and every consumed
track of the artist has its album. -/
structure ArtistOK (ms : List Music) (a : Artist) : Prop where
  nodup : (a.albums.map Album.name).Nodup
  owner : ∀ b ∈ a.albums, b.artist = a.name
  nonempty : ∀ b ∈ a.albums, b.musics ≠ []
  tracks : ∀ b ∈ a.albums, b.musics.Perm (ms.filter (inAlbum a.name b.name))
  covered : ∀ t ∈ ms, t.artist = a.name → ∃ b ∈ a.albums, b.name = t.album

/-- Grouping invariant of the loop of `fromMusics` against the tracks consumed
so far. -/
structure Grouped (ms : List Music) (artists : List Artist) : Prop where
  nodup : (artists.map Artist.name).Nodup
  ok : ∀ a ∈ artists, ArtistOK ms a
  albums_ne : ∀ a ∈ artists, a.albums ≠ []
  all : (allMusics artists).Perm ms

/-- A lower-casing function that agrees with `toLowerCase` on ASCII strings. -/
def LowersAscii (toLowerCase : JSString → JSString) : Prop :=
  ∀ s, isAscii s → toLowerCase s = asciiLower s

/-- A track record written with string literals. -/
def mkMusic (artist album title : String) (trackNo diskNo : Nat) (picture : Option String) :
    Music :=
  { artist := js artist, album := js album, title := js title,
    track := { no := trackNo, of := 0 }, disk := { no := diskNo, of := 0 },
    picture := picture.map js, duration := 0 }

/-- An album record written with string literals, holding no track. -/
def mkAlbum (artist name : String) (image : Option String) : Album :=
  { artist := js artist, name := js name, musics := [], image := image.map js }

/-- An `Album.compare` that ranks every album the same. -/
def flatCompare (_ _ : Album) : Int := 0

/-- Ownership invariant of an artist: every held album names the artist as its
owner. -/
def Owned (a : Artist) : Prop := ∀ b ∈ a.albums, b.artist = a.name

/-- The albums sequence is non-decreasing under the comparator: every album
compares `≤ 0` with its successor. -/
def nonDecreasing (cmp : Album → Album → Int) : List Album → Bool
  | [] => true
  | [_] => true
  | x :: y :: l => decide (cmp x y ≤ 0) && nonDecreasing cmp (y :: l)

/-- The comparator is a total preorder, a consistent comparator in the sense
of `Array.prototype.sort`: its sign is antisymmetric (`cmp a b < 0` exactly
when `cmp b a > 0`, so `cmp a b = 0` exactly when `cmp b a = 0`), and
`cmp a b ≤ 0` is total and transitive. -/
def TotalPreorder (cmp : Album → Album → Int) : Prop :=
  (∀ a b, cmp a b < 0 ↔ 0 < cmp b a) ∧
  (∀ a b, cmp a b ≤ 0 ∨ cmp b a ≤ 0) ∧
  (∀ a b c, cmp a b ≤ 0 → cmp b c ≤ 0 → cmp a c ≤ 0)

/-- The comparator reads only the owner and the name of an album, the fields
that `Album.add` leaves as they are. -/
def ReadsKeyOnly (cmp : Album → Album → Int) : Prop :=
  ∀ x x2 y y2 : Album, x.artist = x2.artist → x.name = x2.name →
    y.artist = y2.artist → y.name = y2.name → cmp x y = cmp x2 y2

/-- An `Album.compare` that ranks albums by their number of tracks. -/
def byTracks (x y : Album) : Int := (x.musics.length : Int) - y.musics.length

/-- An `Album.compare` that ranks albums by name. -/
def byName (x y : Album) : Int := threeWay x.name y.name

/-- The three tracks of the end-to-end scenario of the spec; the fields the
scenario leaves open are arguments. -/
def scenarioTracks (p1 p2 p3 : Option Image) (d1 d2 d3 : Nat) (track3 disk3 : Fraction) :
    List Music :=
  [⟨js "A", js "X", js "1", ⟨2, 2⟩, ⟨1, 1⟩, p1, d1⟩,
    ⟨js "A", js "X", js "2", ⟨1, 2⟩, ⟨1, 1⟩, p2, d2⟩,
    ⟨js "B", js "Y", js "3", track3, disk3, p3, d3⟩]

/-- Artist names, album names and track titles of a result, in order. -/
def outline (artists : List Artist) : List (JSString × List (JSString × List JSString)) :=
  artists.map (fun a => (a.name, a.albums.map (fun b => (b.name, b.musics.map Music.title))))

/-- Artist names and, for each artist, album names of a result, in order. -/
def nameOutline (artists : List Artist) : List (JSString × List JSString) :=
  artists.map (fun a => (a.name, a.albums.map Album.name))

/-- The sort key `Artist.compare` derives from an artist name. -/
def sortKey (toLowerCase : JSString → JSString) (n : JSString) : JSString :=
  replace (js "the ") [] (toLowerCase n)

/-- No two different artist names of the tracks have the same sort key, that
is, compare as 0 under `Artist.compare`. -/
def NoArtistTies (toLowerCase : JSString → JSString) (T : List Music) : Prop :=
  ∀ t ∈ T, ∀ t2 ∈ T, sortKey toLowerCase t.artist = sortKey toLowerCase t2.artist →
    t.artist = t2.artist

/-- Two albums of one owner that the comparator ranks the same have the same
name. -/
def NoAlbumTies (cmp : Album → Album → Int) : Prop :=
  ∀ x y : Album, x.artist = y.artist → cmp x y ≤ 0 → cmp y x ≤ 0 → x.name = y.name

/-! ## Auxiliary facts -/

theorem sort_perm {α : Type} (cmp : α → α → Int) (l : List α) : (sort cmp l).Perm l :=
  List.perm_insertionSort _ l

theorem mem_sort {α : Type} (cmp : α → α → Int) (l : List α) (x : α) :
    x ∈ sort cmp l ↔ x ∈ l :=
  (sort_perm cmp l).mem_iff

theorem updateFirst_split {α : Type} (p : α → Bool) (f : α → α) (l : List α)
    (h : ∃ x ∈ l, p x = true) :
    ∃ pre x post, l = pre ++ x :: post ∧ (∀ y ∈ pre, p y = false) ∧ p x = true ∧
      updateFirst p f l = pre ++ f x :: post := by
  induction l with
  | nil => simp at h
  | cons a l ih =>
    by_cases ha : p a = true
    · exact ⟨[], a, l, rfl, by simp, ha, by simp [updateFirst, ha]⟩
    · have h2 : ∃ x ∈ l, p x = true := by
        obtain ⟨x, hx, hpx⟩ := h
        rcases List.mem_cons.1 hx with rfl | hx
        · exact absurd hpx ha
        · exact ⟨x, hx, hpx⟩
      obtain ⟨pre, x, post, hl, hpre, hx, hu⟩ := ih h2
      refine ⟨a :: pre, x, post, by simp [hl], ?_, hx, by simp [updateFirst, ha, hu]⟩
      intro y hy
      rcases List.mem_cons.1 hy with rfl | hy
      · simpa using ha
      · exact hpre y hy

theorem album_updateImage_artist (al : Album) : al.updateImage.artist = al.artist := by
  unfold Album.updateImage; split <;> rfl

theorem album_updateImage_name (al : Album) : al.updateImage.name = al.name := by
  unfold Album.updateImage; split <;> rfl

theorem album_updateImage_musics (al : Album) : al.updateImage.musics = al.musics := by
  unfold Album.updateImage; split <;> rfl

theorem album_add_ok (al : Album) (m : Music) (hA : m.artist = al.artist)
    (hN : m.album = al.name) :
    (al.add m).2.artist = al.artist ∧ (al.add m).2.name = al.name ∧
      (al.add m).2.musics.Perm (al.musics ++ [m]) := by
  simp only [Album.add, hA, hN, ne_eq, not_true_eq_false, or_self, if_false,
    album_updateImage_artist, album_updateImage_name, album_updateImage_musics, true_and]
  exact sort_perm _ _

theorem artist_updateImage_name (a : Artist) : a.updateImage.name = a.name := by
  unfold Artist.updateImage; split <;> rfl

theorem artist_updateImage_albums (a : Artist) : a.updateImage.albums = a.albums := by
  unfold Artist.updateImage; split <;> rfl

theorem artist_add_ok (cmp : Album → Album → Int) (a : Artist) (al : Album)
    (h : al.artist = a.name) :
    (Artist.add cmp a al).1 = true ∧ (Artist.add cmp a al).2.name = a.name ∧
      (Artist.add cmp a al).2.albums = sort cmp (a.albums ++ [al]) := by
  simp [Artist.add, h, artist_updateImage_name, artist_updateImage_albums]

theorem filter_inAlbum_append (ms : List Music) (m : Music) (artist name : JSString) :
    (ms ++ [m]).filter (inAlbum artist name) =
      ms.filter (inAlbum artist name) ++ (if inAlbum artist name m then [m] else []) := by
  by_cases h : inAlbum artist name m = true <;> simp [List.filter_append, h]

theorem album_findByMusic_none {albums : List Album} {m : Music}
    (h : Album.findByMusic albums m = none) : ∀ b ∈ albums, m.album ≠ b.name := by
  intro b hb
  have := List.find?_eq_none.1 h b hb
  simpa using this

theorem album_findByMusic_some {albums : List Album} {m : Music} {b : Album}
    (h : Album.findByMusic albums m = some b) :
    ∃ x ∈ albums, decide (m.album = x.name) = true := by
  unfold Album.findByMusic at h
  have hp := List.find?_some h
  exact ⟨b, List.mem_of_find?_eq_some h, hp⟩

/-- The track opens a new album of the artist. -/
theorem putMusic_new (cmp : Album → Album → Int) (ms : List Music) (a : Artist)
    (m : Music) (hok : ArtistOK ms a) (hm : m.artist = a.name)
    (hnone : Album.findByMusic a.albums m = none) :
    (Artist.putMusic cmp a m).name = a.name ∧
      ArtistOK (ms ++ [m]) (Artist.putMusic cmp a m) ∧
      (Artist.putMusic cmp a m).albums ≠ [] ∧
      ((Artist.putMusic cmp a m).albums.flatMap Album.musics).Perm
        (a.albums.flatMap Album.musics ++ [m]) := by
  have hne := album_findByMusic_none hnone
  obtain ⟨hXa, hXn, hXm⟩ := album_add_ok (Album.new a.name m.album) m hm rfl
  generalize hX : ((Album.new a.name m.album).add m).2 = X at hXa hXn hXm
  simp only [Album.new, List.nil_append] at hXa hXn hXm
  have hXm1 : X.musics = [m] := List.perm_singleton.1 hXm
  obtain ⟨-, hname, halb⟩ := artist_add_ok cmp a X hXa
  have hput : Artist.putMusic cmp a m = (Artist.add cmp a X).2 := by
    simp [Artist.putMusic, hnone, hX]
  rw [hput]
  have hmem : ∀ b, b ∈ (Artist.add cmp a X).2.albums ↔ b ∈ a.albums ∨ b = X := by
    intro b; rw [halb, mem_sort]; simp
  have hempty : ms.filter (inAlbum a.name m.album) = [] := by
    rw [List.filter_eq_nil_iff]
    intro t ht hin
    simp only [inAlbum, decide_eq_true_eq] at hin
    obtain ⟨b, hb, hbn⟩ := hok.covered t ht hin.1
    exact hne b hb (by rw [hbn, hin.2])
  refine ⟨hname, ⟨?_, ?_, ?_, ?_, ?_⟩, ?_, ?_⟩
  · rw [halb, ((sort_perm cmp _).map Album.name).nodup_iff]
    simp only [List.map_append, List.map_cons, List.map_nil]
    rw [List.nodup_append]
    refine ⟨hok.nodup, List.nodup_singleton _, ?_⟩
    intro n hn hn2
    simp only [List.mem_singleton] at hn2
    obtain ⟨b, hb, rfl⟩ := List.mem_map.1 hn
    exact hne b hb (by rw [hn2, hXn])
  · intro b hb
    rw [hname]
    rcases (hmem b).1 hb with hb | rfl
    · exact hok.owner b hb
    · exact hXa
  · intro b hb
    rcases (hmem b).1 hb with hb | rfl
    · exact hok.nonempty b hb
    · simp [hXm1]
  · intro b hb
    rw [hname, filter_inAlbum_append]
    rcases (hmem b).1 hb with hb | rfl
    · have : inAlbum a.name b.name m = false := by
        simp only [inAlbum, decide_eq_false_iff_not, not_and]
        intro _ h; exact hne b hb h
      simpa [this] using hok.tracks b hb
    · have : inAlbum a.name b.name m = true := by
        simp [inAlbum, hm, hXn]
      rw [hXn, hempty, hXm1]; rw [hXn] at this; simp [this]
  · intro t ht hta
    rw [hname] at hta
    rcases List.mem_append.1 ht with ht | ht
    · obtain ⟨b, hb, hbn⟩ := hok.covered t ht hta
      exact ⟨b, (hmem b).2 (Or.inl hb), hbn⟩
    · simp only [List.mem_singleton] at ht
      subst ht
      exact ⟨X, (hmem X).2 (Or.inr rfl), hXn⟩
  · intro h
    have := (hmem X).2 (Or.inr rfl)
    rw [h] at this; simp at this
  · rw [halb]
    have h1 := (sort_perm cmp (a.albums ++ [X])).flatMap_right Album.musics
    refine h1.trans ?_
    simp [List.flatMap_append, hXm1]

theorem nodup_map_split {α β : Type} (f : α → β) (pre post : List α) (x : α)
    (h : ((pre ++ x :: post).map f).Nodup) : ∀ y, y ∈ pre ∨ y ∈ post → f y ≠ f x := by
  intro y hy hxy
  rw [List.map_append, List.map_cons, List.nodup_middle, List.nodup_cons] at h
  apply h.1
  rw [← hxy, ← List.map_append]
  exact List.mem_map_of_mem f (List.mem_append.2 hy)

/-- The track joins an album the artist already holds. -/
theorem putMusic_old (cmp : Album → Album → Int) (ms : List Music) (a : Artist)
    (m : Music) (hok : ArtistOK ms a) (hm : m.artist = a.name) (b0 : Album)
    (hsome : Album.findByMusic a.albums m = some b0) :
    (Artist.putMusic cmp a m).name = a.name ∧
      ArtistOK (ms ++ [m]) (Artist.putMusic cmp a m) ∧
      (Artist.putMusic cmp a m).albums ≠ [] ∧
      ((Artist.putMusic cmp a m).albums.flatMap Album.musics).Perm
        (a.albums.flatMap Album.musics ++ [m]) := by
  obtain ⟨pre, b, post, hl, -, hb, hu⟩ :=
    updateFirst_split (fun album => decide (m.album = album.name))
      (fun album => (album.add m).2) a.albums (album_findByMusic_some hsome)
  simp only [decide_eq_true_eq] at hb
  have hbmem : b ∈ a.albums := by rw [hl]; simp
  have hba : b.artist = a.name := hok.owner b hbmem
  obtain ⟨hXa, hXn, hXm⟩ := album_add_ok b m (hm.trans hba.symm) hb
  generalize (b.add m).2 = X at hu hXa hXn hXm
  have hput : Artist.putMusic cmp a m = { a with albums := pre ++ X :: post } := by
    simp [Artist.putMusic, hsome, hu]
  rw [hput]
  have hother : ∀ y, y ∈ pre ∨ y ∈ post → y.name ≠ b.name :=
    nodup_map_split Album.name pre post b (hl ▸ hok.nodup)
  have hold : ∀ y, y ∈ pre ∨ y ∈ post → y ∈ a.albums := by
    intro y hy; rw [hl]; simp only [List.mem_append, List.mem_cons]; tauto
  have hmem : ∀ y, y ∈ pre ++ X :: post ↔ (y ∈ pre ∨ y ∈ post) ∨ y = X := by
    intro y; simp only [List.mem_append, List.mem_cons]; tauto
  have hnames : (pre ++ X :: post).map Album.name = a.albums.map Album.name := by
    rw [hl]; simp [hXn]
  refine ⟨rfl, ⟨?_, ?_, ?_, ?_, ?_⟩, by simp, ?_⟩
  · show ((pre ++ X :: post).map Album.name).Nodup
    rw [hnames]; exact hok.nodup
  · intro y hy
    rcases (hmem y).1 hy with hy | rfl
    · exact hok.owner y (hold y hy)
    · exact hXa.trans hba
  · intro y hy
    rcases (hmem y).1 hy with hy | rfl
    · exact hok.nonempty y (hold y hy)
    · intro h; rw [h] at hXm; simpa using hXm.length_eq
  · intro y hy
    show y.musics.Perm ((ms ++ [m]).filter (inAlbum a.name y.name))
    rw [filter_inAlbum_append]
    rcases (hmem y).1 hy with hy | rfl
    · have : inAlbum a.name y.name m = false := by
        simp only [inAlbum, decide_eq_false_iff_not, not_and]
        intro _ h; exact hother y hy (by rw [← h, hb])
      simpa [this] using hok.tracks y (hold y hy)
    · have : inAlbum a.name y.name m = true := by
        simp [inAlbum, hm, hXn, hb]
      rw [this, hXn]
      exact hXm.trans ((hok.tracks b hbmem).append_right [m])
  · intro t ht hta
    have hta2 : t.artist = a.name := hta
    show ∃ y ∈ pre ++ X :: post, y.name = t.album
    have hex : ∃ y ∈ a.albums, y.name = t.album := by
      rcases List.mem_append.1 ht with ht | ht
      · exact hok.covered t ht hta2
      · simp only [List.mem_singleton] at ht
        subst ht
        exact ⟨b, hbmem, hb.symm⟩
    obtain ⟨y, hy, hyn⟩ := hex
    have : t.album ∈ (pre ++ X :: post).map Album.name := by
      rw [hnames, ← hyn]; exact List.mem_map_of_mem _ hy
    obtain ⟨z, hz, hzn⟩ := List.mem_map.1 this
    exact ⟨z, hz, hzn⟩
  · show ((pre ++ X :: post).flatMap Album.musics).Perm _
    rw [hl]
    simp only [List.flatMap_append, List.flatMap_cons]
    have h1 : (X.musics ++ post.flatMap Album.musics).Perm
        (b.musics ++ post.flatMap Album.musics ++ [m]) := by
      refine (hXm.append_right _).trans ?_
      simp only [List.append_assoc]
      exact List.Perm.append_left _ List.perm_append_comm
    refine (h1.append_left _).trans ?_
    simp [List.append_assoc]

theorem putMusic_ok (cmp : Album → Album → Int) (ms : List Music) (a : Artist)
    (m : Music) (hok : ArtistOK ms a) (hm : m.artist = a.name) :
    (Artist.putMusic cmp a m).name = a.name ∧
      ArtistOK (ms ++ [m]) (Artist.putMusic cmp a m) ∧
      (Artist.putMusic cmp a m).albums ≠ [] ∧
      ((Artist.putMusic cmp a m).albums.flatMap Album.musics).Perm
        (a.albums.flatMap Album.musics ++ [m]) := by
  cases h : Album.findByMusic a.albums m with
  | none => exact putMusic_new cmp ms a m hok hm h
  | some b0 => exact putMusic_old cmp ms a m hok hm b0 h

/-- An artist the track does not belong to stays well grouped. -/
theorem artistOK_other {ms : List Music} {a : Artist} (hok : ArtistOK ms a) (m : Music)
    (hne : m.artist ≠ a.name) : ArtistOK (ms ++ [m]) a := by
  have hf : ∀ n, (ms ++ [m]).filter (inAlbum a.name n) = ms.filter (inAlbum a.name n) := by
    intro n
    have : inAlbum a.name n m = false := by
      simp only [inAlbum, decide_eq_false_iff_not, not_and]
      intro h; exact absurd h hne
    rw [filter_inAlbum_append, this]; simp
  refine ⟨hok.nodup, hok.owner, hok.nonempty, ?_, ?_⟩
  · intro b hb; rw [hf]; exact hok.tracks b hb
  · intro t ht hta
    rcases List.mem_append.1 ht with ht | ht
    · exact hok.covered t ht hta
    · simp only [List.mem_singleton] at ht
      subst ht; exact absurd hta hne

/-- Every consumed track sits in the album of its artist and album name. -/
theorem grouped_place {ms : List Music} {artists : List Artist} (h : Grouped ms artists)
    (t : Music) (ht : t ∈ ms) :
    ∃ a ∈ artists, a.name = t.artist ∧ ∃ b ∈ a.albums, b.name = t.album ∧ t ∈ b.musics := by
  have h1 : t ∈ allMusics artists := h.all.mem_iff.2 ht
  simp only [allMusics, List.mem_flatMap] at h1
  obtain ⟨a, ha, b, hb, htb⟩ := h1
  have h2 := ((h.ok a ha).tracks b hb).mem_iff.1 htb
  simp only [List.mem_filter, inAlbum, decide_eq_true_eq] at h2
  exact ⟨a, ha, h2.2.1.symm, b, hb, h2.2.2.symm, htb⟩

theorem artist_findByMusic_none {artists : List Artist} {m : Music}
    (h : Artist.findByMusic artists m = none) : ∀ a ∈ artists, m.artist ≠ a.name := by
  intro a ha
  have := List.find?_eq_none.1 h a ha
  simpa using this

theorem artist_findByMusic_some {artists : List Artist} {m : Music} {a : Artist}
    (h : Artist.findByMusic artists m = some a) :
    ∃ x ∈ artists, decide (m.artist = x.name) = true := by
  unfold Artist.findByMusic at h
  have hp := List.find?_some h
  exact ⟨a, List.mem_of_find?_eq_some h, hp⟩

/-- One pass of the loop body keeps the grouping invariant. -/
theorem grouped_step (cmp : Album → Album → Int) {ms : List Music} {artists : List Artist}
    (h : Grouped ms artists) (m : Music) :
    Grouped (ms ++ [m]) (Artist.fromMusicsStep cmp artists m) := by
  cases hf : Artist.findByMusic artists m with
  | none =>
    have hne := artist_findByMusic_none hf
    have hnew : ArtistOK ms (Artist.new m.artist) := by
      refine ⟨by simp [Artist.new], by simp [Artist.new], by simp [Artist.new],
        by simp [Artist.new], ?_⟩
      intro t ht hta
      obtain ⟨a, ha, hat, -⟩ := grouped_place h t ht
      exact absurd (hta.symm.trans hat.symm).symm (by
        intro hc; exact hne a ha (by rw [hc]; rfl))
    obtain ⟨hn, hok, hal, hfl⟩ :=
      putMusic_ok cmp ms (Artist.new m.artist) m hnew rfl
    have hstep : Artist.fromMusicsStep cmp artists m =
        artists ++ [Artist.putMusic cmp (Artist.new m.artist) m] := by
      simp [Artist.fromMusicsStep, hf]
    rw [hstep]
    generalize Artist.putMusic cmp (Artist.new m.artist) m = n at hn hok hal hfl
    have hn2 : n.name = m.artist := hn
    refine ⟨?_, ?_, ?_, ?_⟩
    · simp only [List.map_append, List.map_cons, List.map_nil]
      rw [List.nodup_append]
      refine ⟨h.nodup, List.nodup_singleton _, ?_⟩
      intro x hx hx2
      simp only [List.mem_singleton] at hx2
      obtain ⟨a, ha, rfl⟩ := List.mem_map.1 hx
      exact hne a ha (by rw [hx2, hn2])
    · intro a ha
      rcases List.mem_append.1 ha with ha | ha
      · exact artistOK_other (h.ok a ha) m (hne a ha)
      · simp only [List.mem_singleton] at ha
        subst ha; exact hok
    · intro a ha
      rcases List.mem_append.1 ha with ha | ha
      · exact h.albums_ne a ha
      · simp only [List.mem_singleton] at ha
        subst ha; exact hal
    · simp only [allMusics, List.flatMap_append, List.flatMap_cons, List.flatMap_nil,
        List.append_nil]
      have hfl2 : (n.albums.flatMap Album.musics).Perm [m] := by
        simpa [Artist.new] using hfl
      exact List.Perm.append h.all hfl2
  | some a0 =>
    obtain ⟨pre, a, post, hl, -, ha, hu⟩ :=
      updateFirst_split (fun artist => decide (m.artist = artist.name))
        (fun artist => Artist.putMusic cmp artist m) artists (artist_findByMusic_some hf)
    simp only [decide_eq_true_eq] at ha
    have hamem : a ∈ artists := by rw [hl]; simp
    obtain ⟨hn, hok, hal, hfl⟩ := putMusic_ok cmp ms a m (h.ok a hamem) ha
    have hstep : Artist.fromMusicsStep cmp artists m =
        pre ++ Artist.putMusic cmp a m :: post := by
      simp [Artist.fromMusicsStep, hf, hu]
    rw [hstep]
    generalize Artist.putMusic cmp a m = n at hn hok hal hfl
    have hother : ∀ y, y ∈ pre ∨ y ∈ post → y.name ≠ a.name :=
      nodup_map_split Artist.name pre post a (hl ▸ h.nodup)
    have hold : ∀ y, y ∈ pre ∨ y ∈ post → y ∈ artists := by
      intro y hy; rw [hl]; simp only [List.mem_append, List.mem_cons]; tauto
    have hmem : ∀ y, y ∈ pre ++ n :: post ↔ (y ∈ pre ∨ y ∈ post) ∨ y = n := by
      intro y; simp only [List.mem_append, List.mem_cons]; tauto
    refine ⟨?_, ?_, ?_, ?_⟩
    · have : (pre ++ n :: post).map Artist.name = artists.map Artist.name := by
        rw [hl]; simp [hn]
      rw [this]; exact h.nodup
    · intro y hy
      rcases (hmem y).1 hy with hy | rfl
      · exact artistOK_other (h.ok y (hold y hy)) m (by
          intro hc; exact hother y hy (by rw [← hc, ha]))
      · exact hok
    · intro y hy
      rcases (hmem y).1 hy with hy | rfl
      · exact h.albums_ne y (hold y hy)
      · exact hal
    · have hall := h.all
      rw [hl] at hall
      simp only [allMusics, List.flatMap_append, List.flatMap_cons] at hall ⊢
      have h1 : (n.albums.flatMap Album.musics ++
            post.flatMap (fun a => a.albums.flatMap Album.musics)).Perm
          (a.albums.flatMap Album.musics ++
            post.flatMap (fun a => a.albums.flatMap Album.musics) ++ [m]) := by
        refine (hfl.append_right _).trans ?_
        simp only [List.append_assoc]
        exact List.Perm.append_left _ List.perm_append_comm
      refine (h1.append_left _).trans ?_
      rw [← List.append_assoc, ← List.append_assoc]
      refine List.Perm.append_right [m] ?_
      simpa [List.append_assoc] using hall

theorem grouped_nil : Grouped [] [] :=
  ⟨by simp, by simp, by simp, by simp [allMusics]⟩

theorem grouped_foldl (cmp : Album → Album → Int) (musics : List Music) :
    ∀ (ms : List Music) (artists : List Artist), Grouped ms artists →
      Grouped (ms ++ musics) (musics.foldl (Artist.fromMusicsStep cmp) artists) := by
  induction musics with
  | nil => intro ms artists h; simpa using h
  | cons m rest ih =>
    intro ms artists h
    have := ih (ms ++ [m]) _ (grouped_step cmp h m)
    simpa [List.append_assoc] using this

theorem grouped_collect (cmp : Album → Album → Int) (musics : List Music) :
    Grouped musics (Artist.collect cmp musics) := by
  have := grouped_foldl cmp musics [] [] grouped_nil
  simpa [Artist.collect] using this

theorem grouped_perm {ms : List Music} {l l2 : List Artist} (h : Grouped ms l)
    (hp : l2.Perm l) : Grouped ms l2 :=
  ⟨(hp.map Artist.name).nodup_iff.2 h.nodup,
    fun a ha => h.ok a (hp.mem_iff.1 ha),
    fun a ha => h.albums_ne a (hp.mem_iff.1 ha),
    (hp.flatMap_right _).trans h.all⟩

theorem grouped_fromMusics (lower : JSString → JSString) (cmp : Album → Album → Int)
    (musics : List Music) : Grouped musics (Artist.fromMusics lower cmp musics) :=
  grouped_perm (grouped_collect cmp musics) (sort_perm _ _)

theorem jsLt_irrefl (x : JSString) : jsLt x x = false := by
  induction x with
  | nil => rfl
  | cons a x ih => simp [jsLt, ih]

theorem jsLt_trans : ∀ (x y z : JSString), jsLt x y = true → jsLt y z = true →
    jsLt x z = true := by
  intro x
  induction x with
  | nil =>
    intro y z hxy hyz
    cases y with
    | nil => simp [jsLt] at hxy
    | cons b y =>
      cases z with
      | nil => simp [jsLt] at hyz
      | cons c z => simp [jsLt]
  | cons a x ih =>
    intro y z hxy hyz
    cases y with
    | nil => simp [jsLt] at hxy
    | cons b y =>
      cases z with
      | nil => simp [jsLt] at hyz
      | cons c z =>
        simp only [jsLt] at hxy hyz ⊢
        by_cases hab : a < b
        · by_cases hbc : b < c
          · have : a < c := lt_trans hab hbc
            simp [this]
          · by_cases hcb : c < b
            · simp [hbc, hcb] at hyz
            · have hbc2 : b = c := by omega
              subst hbc2; simp [hab]
        · by_cases hba : b < a
          · simp [hab, hba] at hxy
          · have hab2 : a = b := by omega
            subst hab2
            simp only [lt_self_iff_false, if_false] at hxy
            by_cases hac : a < c
            · simp [hac]
            · by_cases hca : c < a
              · simp [hac, hca] at hyz
              · simp only [hac, hca, if_false] at hyz ⊢
                exact ih y z hxy hyz

theorem jsLt_total : ∀ (x y : JSString), x ≠ y → jsLt x y = false → jsLt y x = true := by
  intro x
  induction x with
  | nil =>
    intro y hne h
    cases y with
    | nil => exact absurd rfl hne
    | cons b y => simp [jsLt] at h
  | cons a x ih =>
    intro y hne h
    cases y with
    | nil => simp [jsLt]
    | cons b y =>
      simp only [jsLt] at h ⊢
      by_cases hab : a < b
      · simp [hab] at h
      · by_cases hba : b < a
        · simp [hba]
        · have hab2 : a = b := by omega
          subst hab2
          simp only [lt_self_iff_false, if_false] at h ⊢
          exact ih y (by intro hc; exact hne (by rw [hc])) h

theorem jsLt_asymm (x y : JSString) (h : jsLt x y = true) : jsLt y x = false := by
  cases hyx : jsLt y x with
  | false => rfl
  | true =>
    have := jsLt_trans x y x h hyx
    rw [jsLt_irrefl] at this
    exact absurd this (by simp)

theorem compare_le_iff (lower : JSString → JSString) (a b : Artist) :
    Artist.compare lower a b ≤ 0 ↔
      Artist.sortName lower a = Artist.sortName lower b ∨
        jsLt (Artist.sortName lower a) (Artist.sortName lower b) = true := by
  unfold Artist.compare
  by_cases h : Artist.sortName lower a = Artist.sortName lower b
  · simp [h]
  · by_cases h2 : jsLt (Artist.sortName lower a) (Artist.sortName lower b) = true
    · simp [h, h2]
    · simp [h, h2]

theorem compare_total (lower : JSString → JSString) (a b : Artist) :
    Artist.compare lower a b ≤ 0 ∨ Artist.compare lower b a ≤ 0 := by
  rw [compare_le_iff, compare_le_iff]
  by_cases h : Artist.sortName lower a = Artist.sortName lower b
  · exact Or.inl (Or.inl h)
  · by_cases h2 : jsLt (Artist.sortName lower a) (Artist.sortName lower b) = true
    · exact Or.inl (Or.inr h2)
    · exact Or.inr (Or.inr (jsLt_total _ _ h (by simpa using h2)))

theorem compare_trans (lower : JSString → JSString) (a b c : Artist)
    (hab : Artist.compare lower a b ≤ 0) (hbc : Artist.compare lower b c ≤ 0) :
    Artist.compare lower a c ≤ 0 := by
  rw [compare_le_iff] at hab hbc ⊢
  rcases hab with hab | hab
  · rw [hab]; exact hbc
  · rcases hbc with hbc | hbc
    · rw [← hbc]; exact Or.inr hab
    · exact Or.inr (jsLt_trans _ _ _ hab hbc)

theorem sort_pairwise {α : Type} (cmp : α → α → Int)
    (htotal : ∀ a b, cmp a b ≤ 0 ∨ cmp b a ≤ 0)
    (htrans : ∀ a b c, cmp a b ≤ 0 → cmp b c ≤ 0 → cmp a c ≤ 0) (l : List α) :
    (sort cmp l).Pairwise (fun a b => cmp a b ≤ 0) := by
  haveI : IsTotal α (fun a b => cmp a b ≤ 0) := ⟨htotal⟩
  haveI : IsTrans α (fun a b => cmp a b ≤ 0) := ⟨htrans⟩
  exact List.sorted_insertionSort (fun a b => cmp a b ≤ 0) l

theorem replace_absent (pat rep : JSString) :
    ∀ s : JSString, ¬ pat <:+: s → replace pat rep s = s := by
  intro s
  induction s with
  | nil =>
    intro h
    have hp : pat ≠ [] := by
      intro hc; exact h (by rw [hc])
    cases pat with
    | nil => exact absurd rfl hp
    | cons p ps => simp [replace]
  | cons c cs ih =>
    intro h
    have h1 : pat.isPrefixOf (c :: cs) = false := by
      cases hpre : pat.isPrefixOf (c :: cs) with
      | false => rfl
      | true => exact absurd (List.isPrefixOf_iff_prefix.1 hpre).isInfix h
    have h2 : ¬ pat <:+: cs := by
      intro hc
      exact h (hc.trans (List.suffix_cons c cs).isInfix)
    simp only [replace, h1, ih h2]
    simp

theorem replace_first (pat rep : JSString) :
    ∀ (u v s : JSString), s = u ++ pat ++ v →
      (∀ u2 v2 : JSString, s = u2 ++ pat ++ v2 → u.length ≤ u2.length) →
      replace pat rep s = u ++ rep ++ v := by
  intro u
  induction u with
  | nil =>
    intro v s hs _
    cases s with
    | nil =>
      have hp : pat = [] ∧ v = [] := by
        simpa using hs.symm
      simp [replace, hp.1, hp.2]
    | cons c cs =>
      have hpre : pat.isPrefixOf (c :: cs) = true := by
        rw [List.isPrefixOf_iff_prefix, hs]
        exact ⟨v, by simp⟩
      simp only [replace, hpre, if_true, List.nil_append]
      rw [hs]
      simp
  | cons c u ih =>
    intro v s hs hmin
    subst hs
    have hpre : pat.isPrefixOf (c :: (u ++ pat ++ v)) = false := by
      cases hp : pat.isPrefixOf (c :: (u ++ pat ++ v)) with
      | false => rfl
      | true =>
        obtain ⟨w, hw⟩ := List.isPrefixOf_iff_prefix.1 hp
        have := hmin [] w (by simp [hw])
        simp at this
    have hcons : c :: u ++ pat ++ v = c :: (u ++ pat ++ v) := by simp
    rw [hcons]
    simp only [replace, hpre]
    have := ih v (u ++ pat ++ v) rfl (by
      intro u2 v2 h2
      have := hmin (c :: u2) v2 (by simp [h2])
      simpa using this)
    rw [this]
    simp

theorem find_truthy_image (l : List Album) :
    (match l.find? (fun album => truthy album.image) with
      | some album => album.image
      | none => none) = firstTruthyImage l := by
  induction l with
  | nil => rfl
  | cons x xs ih =>
    by_cases h : truthy x.image = true
    · simp [List.find?, firstTruthyImage, h]
    · simp only [List.find?, firstTruthyImage, h]
      simpa using ih

theorem artist_updateImage_image (a : Artist) :
    a.updateImage.image = firstTruthyImage a.albums := by
  rw [← find_truthy_image]
  unfold Artist.updateImage
  split <;> simp_all

theorem firstTruthyImage_first (pre post : List Album) (x : Album)
    (hpre : ∀ y ∈ pre, truthy y.image = false) (hx : truthy x.image = true) :
    firstTruthyImage (pre ++ x :: post) = x.image := by
  induction pre with
  | nil => simp [firstTruthyImage, hx]
  | cons p pre ih =>
    have hp : truthy p.image = false := hpre p (by simp)
    simp only [List.cons_append, firstTruthyImage, hp]
    exact ih (fun y hy => hpre y (by simp [hy]))

theorem firstTruthyImage_none (l : List Album) (h : ∀ y ∈ l, truthy y.image = false) :
    firstTruthyImage l = none := by
  induction l with
  | nil => rfl
  | cons p l ih =>
    have hp : truthy p.image = false := h p (by simp)
    simp only [firstTruthyImage, hp]
    exact ih (fun y hy => h y (by simp [hy]))

theorem firstTruthyImage_present (l : List Album) (h : ∀ y ∈ l, y.image ≠ some []) :
    firstTruthyImage l = firstPresentImage l := by
  induction l with
  | nil => rfl
  | cons p l ih =>
    have ih2 := ih (fun y hy => h y (by simp [hy]))
    have hp : p.image ≠ some [] := h p (by simp)
    cases hi : p.image with
    | none => simp [firstTruthyImage, firstPresentImage, hi, truthy, ih2]
    | some i =>
      have hne : i ≠ [] := by
        intro hc; exact hp (by rw [hi, hc])
      simp [firstTruthyImage, firstPresentImage, hi, truthy, hne]

theorem length_filter_add_countP (l : List Album) (n : JSString) :
    (l.filter (fun x => decide (x.name ≠ n))).length +
      l.countP (fun x => decide (x.name = n)) = l.length := by
  induction l with
  | nil => rfl
  | cons x l ih =>
    simp only [ne_eq, decide_not] at ih ⊢
    by_cases h : x.name = n
    · simp [List.filter_cons, List.countP_cons, h]
      omega
    · simp [List.filter_cons, List.countP_cons, h]
      omega

theorem countP_name_nodup (l : List Album) (n : JSString)
    (hnd : (l.map Album.name).Nodup) (hmem : ∃ x ∈ l, x.name = n) :
    l.countP (fun x => decide (x.name = n)) = 1 := by
  induction l with
  | nil => simp at hmem
  | cons x l ih =>
    rw [List.map_cons, List.nodup_cons] at hnd
    by_cases h : x.name = n
    · have h0 : l.countP (fun x => decide (x.name = n)) = 0 := by
        rw [List.countP_eq_zero]
        intro y hy
        simp only [decide_eq_true_eq]
        intro hyn
        exact hnd.1 (by rw [h, ← hyn]; exact List.mem_map_of_mem _ hy)
      simp [List.countP_cons, h, h0]
    · obtain ⟨y, hy, hyn⟩ := hmem
      rcases List.mem_cons.1 hy with rfl | hy
      · exact absurd hyn h
      · simp [List.countP_cons, h, ih hnd.2 ⟨y, hy, hyn⟩]

/-! ## Claims -/

/-- C1: grouping correctness of `Artist.fromMusics`. The result holds exactly
one artist per distinct `artist` value of the tracks, each artist holds exactly
one album per distinct `album` value among that artist's tracks, every album
is owned by its artist and holds exactly the tracks of its artist and album
name (with their multiplicity), all albums together hold a permutation of the
track list, and the number of tracks over all albums is the length of the
track list. -/
theorem fromMusics_grouping (toLowerCase : JSString → JSString)
    (albumCompare : Album → Album → Int) (T : List Music) :
    ((Artist.fromMusics toLowerCase albumCompare T).map Artist.name).Nodup ∧
    (∀ n, n ∈ (Artist.fromMusics toLowerCase albumCompare T).map Artist.name ↔
      n ∈ T.map Music.artist) ∧
    (∀ a ∈ Artist.fromMusics toLowerCase albumCompare T,
      (a.albums.map Album.name).Nodup ∧
      ∀ n, n ∈ a.albums.map Album.name ↔ ∃ t ∈ T, t.artist = a.name ∧ t.album = n) ∧
    (∀ a ∈ Artist.fromMusics toLowerCase albumCompare T, ∀ b ∈ a.albums,
      b.artist = a.name ∧
      b.musics.Perm (T.filter (fun t => decide (t.artist = a.name ∧ t.album = b.name)))) ∧
    (allMusics (Artist.fromMusics toLowerCase albumCompare T)).Perm T ∧
    ((Artist.fromMusics toLowerCase albumCompare T).map
      (fun a => (a.albums.map (fun b => b.musics.length)).sum)).sum = T.length := by
  have h := grouped_fromMusics toLowerCase albumCompare T
  generalize Artist.fromMusics toLowerCase albumCompare T = R at h
  have hwit : ∀ a ∈ R, ∀ b ∈ a.albums, ∃ t ∈ T, t.artist = a.name ∧ t.album = b.name := by
    intro a ha b hb
    obtain ⟨t, ht⟩ := List.exists_mem_of_ne_nil _ ((h.ok a ha).nonempty b hb)
    have h2 := ((h.ok a ha).tracks b hb).mem_iff.1 ht
    simp only [List.mem_filter, inAlbum, decide_eq_true_eq] at h2
    exact ⟨t, h2.1, h2.2⟩
  refine ⟨h.nodup, ?_, ?_, ?_, h.all, ?_⟩
  · intro n
    constructor
    · intro hn
      obtain ⟨a, ha, rfl⟩ := List.mem_map.1 hn
      obtain ⟨b, hb⟩ := List.exists_mem_of_ne_nil _ (h.albums_ne a ha)
      obtain ⟨t, ht, hta, -⟩ := hwit a ha b hb
      exact List.mem_map.2 ⟨t, ht, hta⟩
    · intro hn
      obtain ⟨t, ht, rfl⟩ := List.mem_map.1 hn
      obtain ⟨a, ha, hat, -⟩ := grouped_place h t ht
      exact List.mem_map.2 ⟨a, ha, hat⟩
  · intro a ha
    refine ⟨(h.ok a ha).nodup, ?_⟩
    intro n
    constructor
    · intro hn
      obtain ⟨b, hb, rfl⟩ := List.mem_map.1 hn
      exact hwit a ha b hb
    · rintro ⟨t, ht, hta, rfl⟩
      obtain ⟨b, hb, hbn⟩ := (h.ok a ha).covered t ht hta
      exact List.mem_map.2 ⟨b, hb, hbn⟩
  · intro a ha b hb
    exact ⟨(h.ok a ha).owner b hb, (h.ok a ha).tracks b hb⟩
  · have hlen := h.all.length_eq
    rw [← hlen, allMusics, List.length_flatMap]
    congr 1
    apply List.map_congr_left
    intro a _
    simp only [Function.comp, List.length_flatMap]
    rfl

/-- C2: the artist list returned by `Artist.fromMusics` is sorted by
`Artist.compare`: for positions `i < j` of the result holding `a` and `b`,
`Artist.compare a b ≤ 0`. -/
theorem fromMusics_sorted (toLowerCase : JSString → JSString)
    (albumCompare : Album → Album → Int) (T : List Music) (i j : Nat) (a b : Artist)
    (hij : i < j)
    (hi : (Artist.fromMusics toLowerCase albumCompare T)[i]? = some a)
    (hj : (Artist.fromMusics toLowerCase albumCompare T)[j]? = some b) :
    Artist.compare toLowerCase a b ≤ 0 := by
  have hp : (Artist.fromMusics toLowerCase albumCompare T).Pairwise
      (fun a b => Artist.compare toLowerCase a b ≤ 0) :=
    sort_pairwise _ (compare_total toLowerCase) (compare_trans toLowerCase) _
  obtain ⟨hi1, hi2⟩ := List.getElem?_eq_some.1 hi
  obtain ⟨hj1, hj2⟩ := List.getElem?_eq_some.1 hj
  have := List.pairwise_iff_getElem.1 hp i j hi1 hj1 hij
  rw [hi2, hj2] at this
  exact this

/-- Witness of C2: tracks of "The Who" and "Abba", in this order, come back as
Abba before The Who. -/
theorem fromMusics_sorted_witness :
    Artist.compare asciiLower
      ⟨js "Abba", [⟨js "Abba", js "Arrival",
        [mkMusic "Abba" "Arrival" "Tiger" 1 1 none], none⟩], none⟩
      ⟨js "The Who", [⟨js "The Who", js "Tommy",
        [mkMusic "The Who" "Tommy" "Overture" 1 1 none], none⟩], none⟩ ≤ 0 :=
  fromMusics_sorted asciiLower flatCompare
    [mkMusic "The Who" "Tommy" "Overture" 1 1 none, mkMusic "Abba" "Arrival" "Tiger" 1 1 none]
    0 1 _ _ (by decide) (by decide) (by decide)

/-- C3 fails on the code: "Soothe Me" and "Soome" compare as 0, because
`replace('the ', '')` is not anchored at the start and removes the "the "
inside "soothe me"; with only a leading "the " removed, as the claim says, the
two names differ and compare as 1. -/
theorem compare_leading_only_counterexample :
    Artist.compare asciiLower ⟨js "Soothe Me", [], none⟩ ⟨js "Soome", [], none⟩ = 0 ∧
    threeWay (specSortName asciiLower ⟨js "Soothe Me", [], none⟩)
      (specSortName asciiLower ⟨js "Soome", [], none⟩) = 1 ∧
    specSortName asciiLower ⟨js "Soothe Me", [], none⟩ ≠
      specSortName asciiLower ⟨js "Soome", [], none⟩ := by
  decide

/-- What `Artist.compare` computes: the three-way comparison of the two names
after each is lower-cased and has the first occurrence of "the ", wherever in
the name it stands, removed; it is 0 exactly when these two names are equal.
The name after removal is the lower-cased name itself when "the " does not
occur in it, and `u ++ v` when `u ++ "the " ++ v` is the lower-cased name and
no occurrence starts before the end of `u`; it is the name with only a leading
"the " removed whenever "the " occurs at the start or not at all. -/
theorem compare_first_occurrence (toLowerCase : JSString → JSString) (a b : Artist) :
    Artist.compare toLowerCase a b =
      threeWay (Artist.sortName toLowerCase a) (Artist.sortName toLowerCase b) ∧
    (Artist.compare toLowerCase a b = 0 ↔
      Artist.sortName toLowerCase a = Artist.sortName toLowerCase b) ∧
    (Artist.compare toLowerCase a b = -1 ∨ Artist.compare toLowerCase a b = 0 ∨
      Artist.compare toLowerCase a b = 1) ∧
    (∀ x : Artist,
      (¬ js "the " <:+: toLowerCase x.name →
        Artist.sortName toLowerCase x = toLowerCase x.name) ∧
      (∀ u v : JSString, toLowerCase x.name = u ++ js "the " ++ v →
        (∀ u2 v2 : JSString, toLowerCase x.name = u2 ++ js "the " ++ v2 →
          u.length ≤ u2.length) →
        Artist.sortName toLowerCase x = u ++ v) ∧
      (js "the " <+: toLowerCase x.name ∨ ¬ js "the " <:+: toLowerCase x.name →
        Artist.sortName toLowerCase x = specSortName toLowerCase x)) := by
  refine ⟨rfl, ?_, ?_, ?_⟩
  · unfold Artist.compare
    by_cases h : Artist.sortName toLowerCase a = Artist.sortName toLowerCase b
    · simp [h]
    · by_cases h2 : jsLt (Artist.sortName toLowerCase a) (Artist.sortName toLowerCase b) = true
      · simp [h, h2]
      · simp [h, h2]
  · unfold Artist.compare
    by_cases h : Artist.sortName toLowerCase a = Artist.sortName toLowerCase b
    · simp [h]
    · by_cases h2 : jsLt (Artist.sortName toLowerCase a) (Artist.sortName toLowerCase b) = true
      · simp [h, h2]
      · simp [h, h2]
  · intro x
    have hfirst : ∀ u v : JSString, toLowerCase x.name = u ++ js "the " ++ v →
        (∀ u2 v2 : JSString, toLowerCase x.name = u2 ++ js "the " ++ v2 →
          u.length ≤ u2.length) →
        Artist.sortName toLowerCase x = u ++ v := by
      intro u v huv hmin
      have := replace_first (js "the ") [] u v (toLowerCase x.name) huv hmin
      simpa [Artist.sortName] using this
    refine ⟨fun h => replace_absent _ _ _ h, hfirst, ?_⟩
    rintro (hpre | habs)
    · obtain ⟨v, hv⟩ := hpre
      have h1 := hfirst [] v (by simp [hv]) (by intro u2 v2 _; simp)
      have h2 : specSortName toLowerCase x = v := by
        have hp : (js "the ").isPrefixOf (toLowerCase x.name) = true :=
          List.isPrefixOf_iff_prefix.2 ⟨v, hv⟩
        simp only [specSortName, stripLeading, hp, if_true]
        rw [← hv]; simp
      rw [h1, h2]; simp
    · have hp : (js "the ").isPrefixOf (toLowerCase x.name) = false := by
        cases hq : (js "the ").isPrefixOf (toLowerCase x.name) with
        | false => rfl
        | true => exact absurd (List.isPrefixOf_iff_prefix.1 hq).isInfix habs
      have h2 : specSortName toLowerCase x = toLowerCase x.name := by
        simp [specSortName, stripLeading, hp]
      rw [h2]; exact replace_absent _ _ _ habs

/-- C4: with a `toLowerCase` that lower-cases ASCII strings as JavaScript does,
`Artist.compare` of "The Beatles" and "Beatles" is 0 and `Artist.compare` of
"Abba" and "The Beatles" is negative. -/
theorem compare_beatles (toLowerCase : JSString → JSString) (h : LowersAscii toLowerCase)
    (imgA imgB : Option Image) (albumsA albumsB : List Album) :
    Artist.compare toLowerCase ⟨js "The Beatles", albumsA, imgA⟩
      ⟨js "Beatles", albumsB, imgB⟩ = 0 ∧
    Artist.compare toLowerCase ⟨js "Abba", albumsA, imgA⟩
      ⟨js "The Beatles", albumsB, imgB⟩ < 0 := by
  have h1 : toLowerCase (js "The Beatles") = asciiLower (js "The Beatles") :=
    h _ (by unfold isAscii; decide)
  have h2 : toLowerCase (js "Beatles") = asciiLower (js "Beatles") :=
    h _ (by unfold isAscii; decide)
  have h3 : toLowerCase (js "Abba") = asciiLower (js "Abba") :=
    h _ (by unfold isAscii; decide)
  simp only [Artist.compare, Artist.sortName, h1, h2, h3]
  decide

/-- Witness of C4: the ASCII lower-casing itself. -/
theorem compare_beatles_witness :
    LowersAscii asciiLower ∧
    Artist.compare asciiLower ⟨js "The Beatles", [], none⟩ ⟨js "Beatles", [], none⟩ = 0 ∧
    Artist.compare asciiLower ⟨js "Abba", [], none⟩ ⟨js "The Beatles", [], none⟩ < 0 :=
  ⟨fun _ _ => rfl, compare_beatles asciiLower (fun _ _ => rfl) none none [] []⟩

/-- C5: ownership rejection. When the artist name of the album differs from
the name of the artist, `add` returns false and leaves the artist as it was:
the albums sequence (contents and length), the name and the image. -/
theorem add_rejects (albumCompare : Album → Album → Int) (a : Artist) (album : Album)
    (h : album.artist ≠ a.name) :
    (Artist.add albumCompare a album).1 = false ∧
    (Artist.add albumCompare a album).2 = a ∧
    (Artist.add albumCompare a album).2.albums = a.albums ∧
    (Artist.add albumCompare a album).2.albums.length = a.albums.length ∧
    (Artist.add albumCompare a album).2.name = a.name ∧
    (Artist.add albumCompare a album).2.image = a.image := by
  simp [Artist.add, h]

/-- Witness of C5: an album of artist "B" offered to artist "A". -/
theorem add_rejects_witness :
    (mkAlbum "B" "Y" (some "y.png")).artist ≠ js "A" ∧
    (Artist.add flatCompare ⟨js "A", [mkAlbum "A" "X" none], none⟩
      (mkAlbum "B" "Y" (some "y.png"))).1 = false ∧
    (Artist.add flatCompare ⟨js "A", [mkAlbum "A" "X" none], none⟩
      (mkAlbum "B" "Y" (some "y.png"))).2 = ⟨js "A", [mkAlbum "A" "X" none], none⟩ :=
  ⟨by decide,
    (add_rejects flatCompare ⟨js "A", [mkAlbum "A" "X" none], none⟩
      (mkAlbum "B" "Y" (some "y.png")) (by decide)).1,
    (add_rejects flatCompare ⟨js "A", [mkAlbum "A" "X" none], none⟩
      (mkAlbum "B" "Y" (some "y.png")) (by decide)).2.1⟩

/-- C6: when the artist name of the album equals the name of the artist, `add`
returns true, the resulting albums sequence is a permutation of the previous
albums followed by the added album, its length grows by exactly one, every
album held before is still held, and the name is unchanged. -/
theorem add_accepts (albumCompare : Album → Album → Int) (a : Artist) (album : Album)
    (h : album.artist = a.name) :
    (Artist.add albumCompare a album).1 = true ∧
    (Artist.add albumCompare a album).2.albums.Perm (a.albums ++ [album]) ∧
    (Artist.add albumCompare a album).2.albums.length = a.albums.length + 1 ∧
    (∀ x ∈ a.albums, x ∈ (Artist.add albumCompare a album).2.albums) ∧
    album ∈ (Artist.add albumCompare a album).2.albums ∧
    (Artist.add albumCompare a album).2.name = a.name := by
  obtain ⟨h1, h2, h3⟩ := artist_add_ok albumCompare a album h
  have hp : (Artist.add albumCompare a album).2.albums.Perm (a.albums ++ [album]) := by
    rw [h3]; exact sort_perm _ _
  refine ⟨h1, hp, ?_, ?_, ?_, h2⟩
  · rw [hp.length_eq]; simp
  · intro x hx
    exact hp.mem_iff.2 (List.mem_append.2 (Or.inl hx))
  · exact hp.mem_iff.2 (by simp)

/-- Witness of C6: a second album added to artist "A" is sorted before the
first by a comparator that ranks albums by the length of their names. -/
theorem add_accepts_witness :
    (Artist.add (fun x y => (x.name.length : Int) - y.name.length)
      ⟨js "A", [mkAlbum "A" "Long" none], none⟩ (mkAlbum "A" "X" none)).1 = true ∧
    (Artist.add (fun x y => (x.name.length : Int) - y.name.length)
      ⟨js "A", [mkAlbum "A" "Long" none], none⟩ (mkAlbum "A" "X" none)).2.albums.Perm
      ([mkAlbum "A" "Long" none] ++ [mkAlbum "A" "X" none]) :=
  ⟨(add_accepts (fun x y => (x.name.length : Int) - y.name.length)
      ⟨js "A", [mkAlbum "A" "Long" none], none⟩ (mkAlbum "A" "X" none) (by decide)).1,
    (add_accepts (fun x y => (x.name.length : Int) - y.name.length)
      ⟨js "A", [mkAlbum "A" "Long" none], none⟩ (mkAlbum "A" "X" none) (by decide)).2.1⟩

/-- C7: removal miss. When no album held by the artist has the name of the
given album, `remove` returns false and leaves the albums sequence, the name
and the image as they were. -/
theorem remove_miss (a : Artist) (album : Album)
    (h : ∀ x ∈ a.albums, x.name ≠ album.name) :
    (Artist.remove a album).1 = false ∧
    (Artist.remove a album).2 = a ∧
    (Artist.remove a album).2.albums = a.albums ∧
    (Artist.remove a album).2.name = a.name ∧
    (Artist.remove a album).2.image = a.image := by
  have hf : a.albums.filter (fun x => decide (x.name ≠ album.name)) = a.albums := by
    rw [List.filter_eq_self]
    intro x hx
    simpa using h x hx
  have hr : Artist.remove a album = (false, a) := by
    simp only [Artist.remove, hf, if_true]
  rw [hr]
  simp

/-- Witness of C7: artist "A" holds "X" and is asked to remove "Y". -/
theorem remove_miss_witness :
    (Artist.remove ⟨js "A", [mkAlbum "A" "X" (some "x.png")], some (js "x.png")⟩
      (mkAlbum "A" "Y" none)).1 = false ∧
    (Artist.remove ⟨js "A", [mkAlbum "A" "X" (some "x.png")], some (js "x.png")⟩
      (mkAlbum "A" "Y" none)).2 =
      ⟨js "A", [mkAlbum "A" "X" (some "x.png")], some (js "x.png")⟩ :=
  ⟨(remove_miss ⟨js "A", [mkAlbum "A" "X" (some "x.png")], some (js "x.png")⟩
      (mkAlbum "A" "Y" none) (by decide)).1,
    (remove_miss ⟨js "A", [mkAlbum "A" "X" (some "x.png")], some (js "x.png")⟩
      (mkAlbum "A" "Y" none) (by decide)).2.1⟩

/-- C8, as stated, fails: two albums named "X" added to artist "A" are both
held, and `remove` of an album named "X" returns true and takes the albums
list from length 2 to length 0. -/
theorem remove_hit_counterexample :
    (∃ x ∈ (Artist.add flatCompare (Artist.add flatCompare (Artist.new (js "A"))
        (mkAlbum "A" "X" none)).2 (mkAlbum "A" "X" (some "x.png"))).2.albums,
      x.name = (mkAlbum "A" "X" none).name) ∧
    (Artist.add flatCompare (Artist.add flatCompare (Artist.new (js "A"))
      (mkAlbum "A" "X" none)).2 (mkAlbum "A" "X" (some "x.png"))).2.albums.length = 2 ∧
    (Artist.remove (Artist.add flatCompare (Artist.add flatCompare (Artist.new (js "A"))
      (mkAlbum "A" "X" none)).2 (mkAlbum "A" "X" (some "x.png"))).2
      (mkAlbum "A" "X" none)).1 = true ∧
    (Artist.remove (Artist.add flatCompare (Artist.add flatCompare (Artist.new (js "A"))
      (mkAlbum "A" "X" none)).2 (mkAlbum "A" "X" (some "x.png"))).2
      (mkAlbum "A" "X" none)).2.albums.length = 0 := by
  refine ⟨⟨mkAlbum "A" "X" none, by decide, rfl⟩, by decide, by decide, by decide⟩

/-- C8, amended: when the artist holds an album with the name of the given
album, `remove` returns true and shrinks the albums list by the number of held
albums with that name, which is at least one; the list shrinks by exactly one
when no two held albums share a name. -/
theorem remove_hit (a : Artist) (album : Album)
    (h : ∃ x ∈ a.albums, x.name = album.name) :
    (Artist.remove a album).1 = true ∧
    (Artist.remove a album).2.albums.length +
      a.albums.countP (fun x => decide (x.name = album.name)) = a.albums.length ∧
    1 ≤ a.albums.countP (fun x => decide (x.name = album.name)) ∧
    ((a.albums.map Album.name).Nodup →
      (Artist.remove a album).2.albums.length = a.albums.length - 1) := by
  have hlen := length_filter_add_countP a.albums album.name
  have hpos : 1 ≤ a.albums.countP (fun x => decide (x.name = album.name)) := by
    obtain ⟨x, hx, hxn⟩ := h
    exact List.countP_pos_iff.2 ⟨x, hx, by simpa using hxn⟩
  have hne : ¬ (a.albums.filter (fun x => decide (x.name ≠ album.name))).length =
      a.albums.length := by omega
  have hr : Artist.remove a album = (true, Artist.updateImage
      { a with albums := a.albums.filter (fun x => decide (x.name ≠ album.name)) }) := by
    simp only [Artist.remove, hne, if_false]
  rw [hr]
  simp only [artist_updateImage_albums]
  refine ⟨trivial, hlen, hpos, ?_⟩
  intro hnd
  have := countP_name_nodup a.albums album.name hnd h
  omega

/-- Witness of C8: artist "A" holds "X" and "Y" and removes "X". -/
theorem remove_hit_witness :
    (Artist.remove ⟨js "A", [mkAlbum "A" "X" none, mkAlbum "A" "Y" none], none⟩
      (mkAlbum "A" "X" none)).1 = true :=
  (remove_hit ⟨js "A", [mkAlbum "A" "X" none, mkAlbum "A" "Y" none], none⟩
    (mkAlbum "A" "X" none) ⟨mkAlbum "A" "X" none, by decide, rfl⟩).1

/-- C9, as stated, fails: the first album has the empty string as its image,
which is not absent, and `updateImage` passes over it and takes the image of
the second album. -/
theorem updateImage_counterexample :
    (Artist.updateImage
      ⟨js "A", [mkAlbum "A" "X" (some ""), mkAlbum "A" "Y" (some "y.png")], none⟩).image =
      some (js "y.png") ∧
    firstPresentImage [mkAlbum "A" "X" (some ""), mkAlbum "A" "Y" (some "y.png")] =
      some (js "") ∧
    (Artist.updateImage
      ⟨js "A", [mkAlbum "A" "X" (some ""), mkAlbum "A" "Y" (some "y.png")], none⟩).image ≠
      firstPresentImage [mkAlbum "A" "X" (some ""), mkAlbum "A" "Y" (some "y.png")] := by
  decide

/-- C9, amended: after `updateImage` the image of the artist is the image of
the first album, in the current order of albums, whose image is neither absent
nor the empty string, and is absent when no album has such an image (also when
there is no album); `updateImage` changes neither albums nor name. When no
album has the empty string as its image, this is the image of the first album
whose image is not absent. -/
theorem updateImage_first_truthy (a : Artist) :
    (Artist.updateImage a).albums = a.albums ∧
    (Artist.updateImage a).name = a.name ∧
    (Artist.updateImage a).image = firstTruthyImage a.albums ∧
    (∀ (pre post : List Album) (x : Album), a.albums = pre ++ x :: post →
      (∀ y ∈ pre, y.image = none ∨ y.image = some []) →
      x.image ≠ none → x.image ≠ some [] →
      (Artist.updateImage a).image = x.image) ∧
    ((∀ y ∈ a.albums, y.image = none ∨ y.image = some []) →
      (Artist.updateImage a).image = none) ∧
    ((∀ y ∈ a.albums, y.image ≠ some []) →
      (Artist.updateImage a).image = firstPresentImage a.albums) := by
  have hfalsy : ∀ y : Album, (y.image = none ∨ y.image = some []) → truthy y.image = false := by
    intro y hy
    rcases hy with hy | hy <;> simp [hy, truthy]
  refine ⟨artist_updateImage_albums a, artist_updateImage_name a,
    artist_updateImage_image a, ?_, ?_, ?_⟩
  · intro pre post x hl hpre hx1 hx2
    rw [artist_updateImage_image, hl]
    apply firstTruthyImage_first
    · intro y hy; exact hfalsy y (hpre y hy)
    · cases hi : x.image with
      | none => exact absurd hi hx1
      | some i =>
        have : i ≠ [] := by
          intro hc; exact hx2 (by rw [hi, hc])
        simp [truthy, this]
  · intro hall
    rw [artist_updateImage_image]
    exact firstTruthyImage_none _ (fun y hy => hfalsy y (hall y hy))
  · intro hall
    rw [artist_updateImage_image]
    exact firstTruthyImage_present _ hall

/-- C10, as stated, fails: an album whose image is the empty string is added to
a new artist; `add` returns true and the image of the artist is absent, while
the first album of the resulting sequence has an image that is not absent. -/
theorem add_image_counterexample :
    (Artist.add flatCompare (Artist.new (js "A")) (mkAlbum "A" "X" (some ""))).1 = true ∧
    (Artist.add flatCompare (Artist.new (js "A")) (mkAlbum "A" "X" (some ""))).2.image =
      none ∧
    firstPresentImage
      (Artist.add flatCompare (Artist.new (js "A")) (mkAlbum "A" "X" (some ""))).2.albums =
      some (js "") := by
  decide

/-- C10, amended: after every `add` or `remove` that returns true, the image of
the artist is the image of the first album of the resulting albums sequence
whose image is neither absent nor the empty string, or absent if there is none;
when no resulting album has the empty string as its image, it is the image of
the first resulting album whose image is not absent. -/
theorem image_after_add_remove (albumCompare : Album → Album → Int) (a : Artist)
    (album : Album) :
    ((Artist.add albumCompare a album).1 = true →
      (Artist.add albumCompare a album).2.image =
        firstTruthyImage (Artist.add albumCompare a album).2.albums ∧
      ((∀ y ∈ (Artist.add albumCompare a album).2.albums, y.image ≠ some []) →
        (Artist.add albumCompare a album).2.image =
          firstPresentImage (Artist.add albumCompare a album).2.albums)) ∧
    ((Artist.remove a album).1 = true →
      (Artist.remove a album).2.image = firstTruthyImage (Artist.remove a album).2.albums ∧
      ((∀ y ∈ (Artist.remove a album).2.albums, y.image ≠ some []) →
        (Artist.remove a album).2.image =
          firstPresentImage (Artist.remove a album).2.albums)) := by
  have key : ∀ s : Artist, s.updateImage.image = firstTruthyImage s.updateImage.albums ∧
      ((∀ y ∈ s.updateImage.albums, y.image ≠ some []) →
        s.updateImage.image = firstPresentImage s.updateImage.albums) := by
    intro s
    rw [artist_updateImage_image, artist_updateImage_albums]
    exact ⟨rfl, firstTruthyImage_present _⟩
  constructor
  · intro h
    by_cases hg : album.artist ≠ a.name
    · simp [Artist.add, hg] at h
    · have hr : Artist.add albumCompare a album = (true, Artist.updateImage
          { a with albums := sort albumCompare (a.albums ++ [album]) }) := by
        simp only [Artist.add, hg, if_false]
      rw [hr]
      exact key _
  · intro h
    by_cases hg : (a.albums.filter (fun x => decide (x.name ≠ album.name))).length =
        a.albums.length
    · have hr : Artist.remove a album = (false, a) := by
        simp only [Artist.remove, hg, if_true]
      rw [hr] at h
      exact absurd h (by simp)
    · have hr : Artist.remove a album = (true, Artist.updateImage
          { a with albums := a.albums.filter (fun x => decide (x.name ≠ album.name)) }) := by
        simp only [Artist.remove, hg, if_false]
      rw [hr]
      exact key _

/-- Witness of C10: an album with an image added to a new artist, then removed. -/
theorem image_after_add_remove_witness :
    (Artist.add flatCompare (Artist.new (js "A")) (mkAlbum "A" "X" (some "x.png"))).2.image =
      firstTruthyImage
        (Artist.add flatCompare (Artist.new (js "A"))
          (mkAlbum "A" "X" (some "x.png"))).2.albums ∧
    (Artist.remove ⟨js "A", [mkAlbum "A" "X" (some "x.png")], some (js "x.png")⟩
      (mkAlbum "A" "X" none)).2.image =
      firstTruthyImage (Artist.remove
        ⟨js "A", [mkAlbum "A" "X" (some "x.png")], some (js "x.png")⟩
        (mkAlbum "A" "X" none)).2.albums :=
  ⟨((image_after_add_remove flatCompare (Artist.new (js "A"))
      (mkAlbum "A" "X" (some "x.png"))).1 (by decide)).1,
    ((image_after_add_remove flatCompare
      ⟨js "A", [mkAlbum "A" "X" (some "x.png")], some (js "x.png")⟩
      (mkAlbum "A" "X" none)).2 (by decide)).1⟩

/-- C17: `Artist.compare` is a consistent comparator. Its value is -1, 0 or 1;
an artist compares as 0 with itself; swapping the arguments negates the value;
and `compare a b ≤ 0` with `compare b c ≤ 0` gives `compare a c ≤ 0`. -/
theorem compare_consistent (toLowerCase : JSString → JSString) (a b c : Artist) :
    (Artist.compare toLowerCase a b = -1 ∨ Artist.compare toLowerCase a b = 0 ∨
      Artist.compare toLowerCase a b = 1) ∧
    Artist.compare toLowerCase a a = 0 ∧
    Artist.compare toLowerCase a b = -Artist.compare toLowerCase b a ∧
    (Artist.compare toLowerCase a b ≤ 0 → Artist.compare toLowerCase b c ≤ 0 →
      Artist.compare toLowerCase a c ≤ 0) := by
  refine ⟨?_, by simp [Artist.compare], ?_, compare_trans toLowerCase a b c⟩
  · unfold Artist.compare
    by_cases h : Artist.sortName toLowerCase a = Artist.sortName toLowerCase b
    · simp [h]
    · by_cases h2 : jsLt (Artist.sortName toLowerCase a) (Artist.sortName toLowerCase b) = true
      · simp [h, h2]
      · simp [h, h2]
  · unfold Artist.compare
    by_cases h : Artist.sortName toLowerCase a = Artist.sortName toLowerCase b
    · simp [h]
    · have h' : ¬ Artist.sortName toLowerCase b = Artist.sortName toLowerCase a :=
        fun hc => h hc.symm
      by_cases h2 : jsLt (Artist.sortName toLowerCase a) (Artist.sortName toLowerCase b) = true
      · have h3 := jsLt_asymm _ _ h2
        simp [h, h', h2, h3]
      · have h3 := jsLt_total _ _ h (by simpa using h2)
        simp [h, h', h2, h3]

/-- C18: after `remove` returns true the albums sequence is the previous
sequence with every album named as the given album deleted: no such album is
left, every other album is kept, and the kept albums stand in their previous
relative order. -/
theorem remove_deletes_all_named (a : Artist) (album : Album)
    (h : (Artist.remove a album).1 = true) :
    (Artist.remove a album).2.albums =
      a.albums.filter (fun x => decide (x.name ≠ album.name)) ∧
    (∀ x ∈ (Artist.remove a album).2.albums, x.name ≠ album.name) ∧
    (∀ x ∈ a.albums, x.name ≠ album.name → x ∈ (Artist.remove a album).2.albums) ∧
    (Artist.remove a album).2.albums.Sublist a.albums ∧
    (Artist.remove a album).2.name = a.name := by
  by_cases hg : (a.albums.filter (fun x => decide (x.name ≠ album.name))).length =
      a.albums.length
  · have hr : Artist.remove a album = (false, a) := by
      simp only [Artist.remove, hg, if_true]
    rw [hr] at h
    exact absurd h (by simp)
  · have hr : Artist.remove a album = (true, Artist.updateImage
        { a with albums := a.albums.filter (fun x => decide (x.name ≠ album.name)) }) := by
      simp only [Artist.remove, hg, if_false]
    rw [hr]
    simp only [artist_updateImage_albums, artist_updateImage_name]
    refine ⟨trivial, ?_, ?_, List.filter_sublist _, trivial⟩
    · intro x hx
      have := (List.mem_filter.1 hx).2
      simpa using this
    · intro x hx hxn
      exact List.mem_filter.2 ⟨hx, by simpa using hxn⟩

/-- Witness of C18: artist "A" holds "X", "Y", "X" and removes "X". -/
theorem remove_deletes_all_named_witness :
    (Artist.remove
      ⟨js "A", [mkAlbum "A" "X" none, mkAlbum "A" "Y" none, mkAlbum "A" "X" (some "x.png")],
        none⟩ (mkAlbum "A" "X" none)).2.albums =
      [mkAlbum "A" "X" none, mkAlbum "A" "Y" none, mkAlbum "A" "X" (some "x.png")].filter
        (fun x => decide (x.name ≠ (mkAlbum "A" "X" none).name)) :=
  (remove_deletes_all_named
    ⟨js "A", [mkAlbum "A" "X" none, mkAlbum "A" "Y" none, mkAlbum "A" "X" (some "x.png")],
      none⟩ (mkAlbum "A" "X" none) (by decide)).1

/-- C20: `Artist.findByMusic` returns the first artist in list order whose name
equals `music.artist`, every artist before it having another name, and returns
null exactly when no artist of the list has that name. The list is only read:
the result is the sole output of the function. -/
theorem findByMusic_first (artists : List Artist) (music : Music) :
    (Artist.findByMusic artists music = none ↔ ∀ a ∈ artists, a.name ≠ music.artist) ∧
    (∀ a, Artist.findByMusic artists music = some a ↔
      a.name = music.artist ∧
      ∃ pre post, artists = pre ++ a :: post ∧ ∀ y ∈ pre, y.name ≠ music.artist) := by
  have hp : ∀ y : Artist, decide (music.artist = y.name) = true ↔ y.name = music.artist := by
    intro y
    rw [decide_eq_true_eq]
    exact eq_comm
  have hn : ∀ y : Artist, (!decide (music.artist = y.name)) = true ↔
      y.name ≠ music.artist := by
    intro y
    rw [Bool.not_eq_true', decide_eq_false_iff_not]
    exact not_congr eq_comm
  constructor
  · unfold Artist.findByMusic
    rw [List.find?_eq_none]
    constructor
    · intro h a ha hc
      exact h a ha ((hp a).2 hc)
    · intro h a ha hc
      exact h a ha ((hp a).1 hc)
  · intro a
    unfold Artist.findByMusic
    rw [List.find?_eq_some]
    constructor
    · rintro ⟨h1, pre, post, hl, hpre⟩
      exact ⟨(hp a).1 h1, pre, post, hl, fun y hy => (hn y).1 (hpre y hy)⟩
    · rintro ⟨h1, pre, post, hl, hpre⟩
      exact ⟨(hp a).2 h1, pre, post, hl, fun y hy => (hn y).2 (hpre y hy)⟩

theorem owned_updateImage (a : Artist) (h : Owned a) : Owned (Artist.updateImage a) := by
  intro b hb
  rw [artist_updateImage_albums] at hb
  rw [artist_updateImage_name]
  exact h b hb

/-- C12: the ownership invariant, every album of the artist naming the artist
as its owner, holds for a newly constructed artist, is preserved by `add`
(whether it accepts or rejects), by `remove` and by `updateImage`, and holds for
every artist returned by `Artist.fromMusics`. -/
theorem ownership_invariant (toLowerCase : JSString → JSString)
    (albumCompare : Album → Album → Int) :
    (∀ n, Owned (Artist.new n)) ∧
    (∀ a album, Owned a → Owned (Artist.add albumCompare a album).2) ∧
    (∀ a album, Owned a → Owned (Artist.remove a album).2) ∧
    (∀ a, Owned a → Owned (Artist.updateImage a)) ∧
    (∀ T, ∀ a ∈ Artist.fromMusics toLowerCase albumCompare T, Owned a) := by
  refine ⟨?_, ?_, ?_, owned_updateImage, ?_⟩
  · intro n b hb
    simp [Artist.new] at hb
  · intro a album h
    by_cases hg : album.artist ≠ a.name
    · have hr : Artist.add albumCompare a album = (false, a) := by
        unfold Artist.add
        rw [if_pos hg]
      rw [hr]; exact h
    · have hr : Artist.add albumCompare a album = (true, Artist.updateImage
          { a with albums := sort albumCompare (a.albums ++ [album]) }) := by
        unfold Artist.add
        rw [if_neg hg]
      rw [hr]
      apply owned_updateImage
      intro b hb
      have hb2 : b ∈ a.albums ++ [album] := (mem_sort albumCompare _ b).1 hb
      rcases List.mem_append.1 hb2 with hb3 | hb3
      · exact h b hb3
      · simp only [List.mem_singleton] at hb3
        subst hb3
        exact not_not.1 hg
  · intro a album h
    by_cases hg : (a.albums.filter (fun x => decide (x.name ≠ album.name))).length =
        a.albums.length
    · have hr : Artist.remove a album = (false, a) := by
        simp only [Artist.remove, hg, if_true]
      rw [hr]; exact h
    · have hr : Artist.remove a album = (true, Artist.updateImage
          { a with albums := a.albums.filter (fun x => decide (x.name ≠ album.name)) }) := by
        simp only [Artist.remove, hg, if_false]
      rw [hr]
      apply owned_updateImage
      intro b hb
      exact h b (List.mem_filter.1 hb).1
  · intro T a ha
    exact ((grouped_fromMusics toLowerCase albumCompare T).ok a ha).owner

/-- C16: empty strings are grouping keys like any other. A track of the list
whose artist is the empty string is held by an album of an artist named by the
empty string, and this is the only artist of the result with that name; a
track whose album is the empty string is held by an album named by the empty
string under the artist of the track. -/
theorem empty_string_keys (toLowerCase : JSString → JSString)
    (albumCompare : Album → Album → Int) (T : List Music) (t : Music) (ht : t ∈ T) :
    (t.artist = [] →
      ∃ a ∈ Artist.fromMusics toLowerCase albumCompare T,
        a.name = [] ∧ (∃ b ∈ a.albums, b.name = t.album ∧ t ∈ b.musics) ∧
        ∀ a2 ∈ Artist.fromMusics toLowerCase albumCompare T, a2.name = [] → a2 = a) ∧
    (t.album = [] →
      ∃ a ∈ Artist.fromMusics toLowerCase albumCompare T,
        a.name = t.artist ∧ ∃ b ∈ a.albums, b.name = [] ∧ t ∈ b.musics) := by
  have h := grouped_fromMusics toLowerCase albumCompare T
  obtain ⟨a, ha, han, b, hb, hbn, htb⟩ := grouped_place h t ht
  constructor
  · intro hta
    refine ⟨a, ha, han.trans hta, ⟨b, hb, hbn, htb⟩, ?_⟩
    intro a2 ha2 hn2
    exact List.inj_on_of_nodup_map h.nodup ha2 ha (hn2.trans (han.trans hta).symm)
  · intro htb2
    exact ⟨a, ha, han, b, hb, hbn.trans htb2, htb⟩

/-- Witness of C16: one track with the empty string as artist and as album. -/
theorem empty_string_keys_witness :
    ∃ a ∈ Artist.fromMusics asciiLower flatCompare [mkMusic "" "" "untitled" 1 1 none],
      a.name = (mkMusic "" "" "untitled" 1 1 none).artist ∧
      ∃ b ∈ a.albums, b.name = [] ∧ mkMusic "" "" "untitled" 1 1 none ∈ b.musics :=
  (empty_string_keys asciiLower flatCompare [mkMusic "" "" "untitled" 1 1 none]
    (mkMusic "" "" "untitled" 1 1 none) (by decide)).2 (by decide)

theorem nonDecreasing_of_pairwise (cmp : Album → Album → Int) (l : List Album)
    (h : l.Pairwise (fun x y => cmp x y ≤ 0)) : nonDecreasing cmp l = true := by
  induction l with
  | nil => rfl
  | cons x l ih =>
    cases l with
    | nil => rfl
    | cons y l =>
      rw [List.pairwise_cons] at h
      simp only [nonDecreasing, Bool.and_eq_true, decide_eq_true_eq]
      exact ⟨h.1 y (by simp), ih h.2⟩

theorem pairwise_of_nonDecreasing (cmp : Album → Album → Int)
    (htrans : ∀ a b c, cmp a b ≤ 0 → cmp b c ≤ 0 → cmp a c ≤ 0) (l : List Album)
    (h : nonDecreasing cmp l = true) : l.Pairwise (fun x y => cmp x y ≤ 0) := by
  induction l with
  | nil => exact List.Pairwise.nil
  | cons x l ih =>
    cases l with
    | nil => simp
    | cons y l =>
      simp only [nonDecreasing, Bool.and_eq_true, decide_eq_true_eq] at h
      have ih2 := ih h.2
      rw [List.pairwise_cons]
      refine ⟨?_, ih2⟩
      intro z hz
      rcases List.mem_cons.1 hz with rfl | hz
      · exact h.1
      · exact htrans x y z h.1 ((List.pairwise_cons.1 ih2).1 z hz)

theorem orderedInsert_least {α : Type} (r : α → α → Prop) [DecidableRel r] (a : α)
    (l : List α) (h : ∀ y ∈ l, r a y) : l.orderedInsert r a = a :: l := by
  cases l with
  | nil => rfl
  | cons b l => simp [List.orderedInsert, h b (by simp)]

/-- Sorting a sorted sequence with one element appended puts that element
somewhere into the sequence and moves nothing else. -/
theorem sort_append_sorted {α : Type} (cmp : α → α → Int) (x : α) (l : List α)
    (h : l.Pairwise (fun a b => cmp a b ≤ 0)) :
    ∃ l1 l2, l = l1 ++ l2 ∧ sort cmp (l ++ [x]) = l1 ++ x :: l2 := by
  induction l with
  | nil => exact ⟨[], [], rfl, rfl⟩
  | cons a l ih =>
    rw [List.pairwise_cons] at h
    obtain ⟨l1, l2, hl, hs⟩ := ih h.2
    have hstep : sort cmp (a :: l ++ [x]) =
        (l1 ++ x :: l2).orderedInsert (fun a b => cmp a b ≤ 0) a := by
      rw [← hs]; rfl
    rw [hstep]
    cases l1 with
    | nil =>
      simp only [List.nil_append] at hl ⊢
      by_cases hax : cmp a x ≤ 0
      · exact ⟨[a], l2, by simp [hl], by simp [List.orderedInsert, hax]⟩
      · refine ⟨[], a :: l2, by simp [hl], ?_⟩
        have : l2.orderedInsert (fun a b => cmp a b ≤ 0) a = a :: l2 :=
          orderedInsert_least _ a l2 (fun y hy => h.1 y (by rw [hl]; exact hy))
        simp [List.orderedInsert, hax, this]
    | cons b l1 =>
      have hab : cmp a b ≤ 0 := h.1 b (by rw [hl]; simp)
      exact ⟨a :: b :: l1, l2, by simp [hl], by simp [List.orderedInsert, hab]⟩

theorem byName_le_iff (u v : Album) :
    byName u v ≤ 0 ↔ (u.name = v.name ∨ jsLt u.name v.name = true) := by
  by_cases h : u.name = v.name
  · simp [byName, threeWay, h]
  · by_cases h2 : jsLt u.name v.name = true
    · simp [byName, threeWay, h, h2]
    · simp [byName, threeWay, h, h2]

theorem byName_totalPreorder : TotalPreorder byName := by
  refine ⟨?_, ?_, ?_⟩
  · intro x y
    unfold byName threeWay
    by_cases h : x.name = y.name
    · simp [h]
    · have h' : ¬ y.name = x.name := fun hc => h hc.symm
      by_cases h2 : jsLt x.name y.name = true
      · have h3 := jsLt_asymm _ _ h2
        simp [h, h', h2, h3]
      · have h3 := jsLt_total _ _ h (by simpa using h2)
        simp [h, h', h2, h3]
  · intro x y
    rw [byName_le_iff, byName_le_iff]
    by_cases h : x.name = y.name
    · exact Or.inl (Or.inl h)
    · by_cases h2 : jsLt x.name y.name = true
      · exact Or.inl (Or.inr h2)
      · exact Or.inr (Or.inr (jsLt_total _ _ h (by simpa using h2)))
  · intro x y z hxy hyz
    rw [byName_le_iff] at hxy hyz ⊢
    rcases hxy with hxy | hxy
    · rw [hxy]; exact hyz
    · rcases hyz with hyz | hyz
      · rw [← hyz]; exact Or.inr hxy
      · exact Or.inr (jsLt_trans _ _ _ hxy hyz)

/-- C19: add-then-remove round trip. For an `Album.compare` that is a total
preorder (a consistent comparator, so that the stable sort of the model is the
sort of the engine), an artist whose albums are non-decreasing and hold no album named as the given
one, and an album owned by the artist, `add` returns true, the `remove` that
follows returns true, and the albums sequence is again exactly what it was
before the `add`; the name is unchanged. -/
theorem add_remove_roundtrip (albumCompare : Album → Album → Int)
    (hpre : TotalPreorder albumCompare) (a : Artist) (album : Album)
    (hsorted : nonDecreasing albumCompare a.albums = true)
    (hfresh : ∀ x ∈ a.albums, x.name ≠ album.name) (hown : album.artist = a.name) :
    (Artist.add albumCompare a album).1 = true ∧
    (Artist.remove (Artist.add albumCompare a album).2 album).1 = true ∧
    (Artist.remove (Artist.add albumCompare a album).2 album).2.albums = a.albums ∧
    (Artist.remove (Artist.add albumCompare a album).2 album).2.name = a.name := by
  obtain ⟨h1, h2, h3⟩ := artist_add_ok albumCompare a album hown
  have hp := pairwise_of_nonDecreasing albumCompare hpre.2.2 a.albums hsorted
  obtain ⟨l1, l2, hl, hs⟩ := sort_append_sorted albumCompare album a.albums hp
  have hkeep : ∀ l : List Album, (∀ x ∈ l, x ∈ a.albums) →
      l.filter (fun x => decide (x.name ≠ album.name)) = l := by
    intro l hsub
    rw [List.filter_eq_self]
    intro x hx
    simpa using hfresh x (hsub x hx)
  have hf : (Artist.add albumCompare a album).2.albums.filter
      (fun x => decide (x.name ≠ album.name)) = a.albums := by
    rw [h3, hs, List.filter_append, List.filter_cons]
    rw [hkeep l1 (fun x hx => by rw [hl]; exact List.mem_append.2 (Or.inl hx)),
      hkeep l2 (fun x hx => by rw [hl]; exact List.mem_append.2 (Or.inr hx))]
    simp [hl]
  have hlen : ¬ ((Artist.add albumCompare a album).2.albums.filter
      (fun x => decide (x.name ≠ album.name))).length =
      (Artist.add albumCompare a album).2.albums.length := by
    rw [hf, h3, (sort_perm albumCompare _).length_eq]
    simp
  have hr : Artist.remove (Artist.add albumCompare a album).2 album =
      (true, Artist.updateImage { (Artist.add albumCompare a album).2 with
        albums := (Artist.add albumCompare a album).2.albums.filter
          (fun x => decide (x.name ≠ album.name)) }) := by
    unfold Artist.remove
    simp only []
    rw [if_neg hlen]
  rw [hr]
  simp only [artist_updateImage_albums, artist_updateImage_name]
  exact ⟨h1, trivial, hf, h2⟩

/-- Witness of C19: "M" is added to an artist holding "A" and "Z", ranked by
name, and removed again. -/
theorem add_remove_roundtrip_witness :
    (Artist.remove (Artist.add byName
      ⟨js "Q", [mkAlbum "Q" "A" none, mkAlbum "Q" "Z" none], none⟩
      (mkAlbum "Q" "M" none)).2 (mkAlbum "Q" "M" none)).2.albums =
      [mkAlbum "Q" "A" none, mkAlbum "Q" "Z" none] :=
  (add_remove_roundtrip byName byName_totalPreorder
    ⟨js "Q", [mkAlbum "Q" "A" none, mkAlbum "Q" "Z" none], none⟩
    (mkAlbum "Q" "M" none) (by decide) (by decide) (by decide)).2.2.1

theorem album_add_artist (al : Album) (m : Music) : (al.add m).2.artist = al.artist := by
  unfold Album.add
  split
  · rfl
  · exact album_updateImage_artist _

theorem album_add_name (al : Album) (m : Music) : (al.add m).2.name = al.name := by
  unfold Album.add
  split
  · rfl
  · exact album_updateImage_name _

theorem mem_updateFirst {α : Type} (p : α → Bool) (f : α → α) (l : List α) (y : α)
    (h : y ∈ updateFirst p f l) : y ∈ l ∨ ∃ x ∈ l, y = f x := by
  induction l with
  | nil => simp [updateFirst] at h
  | cons a l ih =>
    by_cases hp : p a = true
    · simp only [updateFirst, hp, if_true, List.mem_cons] at h
      rcases h with h | h
      · exact Or.inr ⟨a, by simp, h⟩
      · exact Or.inl (by simp [h])
    · simp only [updateFirst, hp, Bool.false_eq_true, if_false, List.mem_cons] at h
      rcases h with h | h
      · exact Or.inl (by simp [h])
      · rcases ih h with h2 | ⟨x, hx, hxy⟩
        · exact Or.inl (by simp [h2])
        · exact Or.inr ⟨x, by simp [hx], hxy⟩

theorem pairwise_updateFirst {α : Type} (r : α → α → Prop) (p : α → Bool) (f : α → α)
    (hl : ∀ x y, r x y → r (f x) y) (hr : ∀ x y, r x y → r x (f y)) (l : List α)
    (h : l.Pairwise r) : (updateFirst p f l).Pairwise r := by
  induction l with
  | nil => simp [updateFirst]
  | cons a l ih =>
    rw [List.pairwise_cons] at h
    by_cases hp : p a = true
    · simp only [updateFirst, hp, if_true]
      rw [List.pairwise_cons]
      exact ⟨fun y hy => hl a y (h.1 y hy), h.2⟩
    · simp only [updateFirst, hp, Bool.false_eq_true, if_false]
      rw [List.pairwise_cons]
      refine ⟨?_, ih h.2⟩
      intro y hy
      rcases mem_updateFirst p f l y hy with hy | ⟨x, hx, rfl⟩
      · exact h.1 y hy
      · exact hr a x (h.1 x hx)

/-- A property of artists that a new artist has and the loop body keeps holds
for every artist the loop of `fromMusics` builds. -/
theorem collect_forall (cmp : Album → Album → Int) (P : Artist → Prop)
    (hnew : ∀ n, P (Artist.new n)) (hput : ∀ a m, P a → P (Artist.putMusic cmp a m))
    (T : List Music) : ∀ a ∈ Artist.collect cmp T, P a := by
  have gen : ∀ (T : List Music) (artists : List Artist), (∀ a ∈ artists, P a) →
      ∀ a ∈ T.foldl (Artist.fromMusicsStep cmp) artists, P a := by
    intro T
    induction T with
    | nil => intro artists h; simpa using h
    | cons m T ih =>
      intro artists h
      simp only [List.foldl_cons]
      apply ih
      intro a ha
      unfold Artist.fromMusicsStep at ha
      split at ha
      · rcases mem_updateFirst _ _ _ _ ha with ha | ⟨x, hx, rfl⟩
        · exact h a ha
        · exact hput x m (h x hx)
      · rcases List.mem_append.1 ha with ha | ha
        · exact h a ha
        · simp only [List.mem_singleton] at ha
          subst ha
          exact hput _ m (hnew _)
  exact gen T [] (by simp)

theorem putMusic_pairwise (cmp : Album → Album → Int) (hpre : TotalPreorder cmp)
    (hkey : ReadsKeyOnly cmp) (a : Artist) (m : Music)
    (h : a.albums.Pairwise (fun x y => cmp x y ≤ 0)) :
    (Artist.putMusic cmp a m).albums.Pairwise (fun x y => cmp x y ≤ 0) := by
  unfold Artist.putMusic
  split
  · show (updateFirst _ _ a.albums).Pairwise _
    apply pairwise_updateFirst _ _ _ _ _ _ h
    · intro x y hxy
      rw [hkey (x.add m).2 x y y (album_add_artist x m) (album_add_name x m) rfl rfl]
      exact hxy
    · intro x y hxy
      rw [hkey x x (y.add m).2 y rfl rfl (album_add_artist y m) (album_add_name y m)]
      exact hxy
  · have ho : ((Album.new a.name m.album).add m).2.artist = a.name := by
      rw [album_add_artist]; rfl
    rw [(artist_add_ok cmp a _ ho).2.2]
    exact sort_pairwise cmp hpre.2.1 hpre.2.2 _

/-- C11 fails on the code: with albums ranked by their number of tracks, a
total preorder, the second track of album "X" arrives after album "Y" was
added; the loop adds it to the album in place and sorts nothing, so "X" stands
with two tracks before "Y" with one and the albums are not non-decreasing. -/
theorem fromMusics_unsorted_counterexample :
    TotalPreorder byTracks ∧
    Artist.fromMusics asciiLower byTracks
      [mkMusic "A" "X" "1" 1 1 none, mkMusic "A" "Y" "2" 1 1 none,
        mkMusic "A" "X" "3" 2 1 none] =
      [⟨js "A",
        [⟨js "A", js "X", [mkMusic "A" "X" "1" 1 1 none, mkMusic "A" "X" "3" 2 1 none], none⟩,
          ⟨js "A", js "Y", [mkMusic "A" "Y" "2" 1 1 none], none⟩], none⟩] ∧
    nonDecreasing byTracks
      [⟨js "A", js "X", [mkMusic "A" "X" "1" 1 1 none, mkMusic "A" "X" "3" 2 1 none], none⟩,
        ⟨js "A", js "Y", [mkMusic "A" "Y" "2" 1 1 none], none⟩] = false := by
  refine ⟨⟨?_, ?_, ?_⟩, by decide, by decide⟩
  · intro a b
    unfold byTracks
    omega
  · intro a b
    unfold byTracks
    omega
  · intro a b c
    unfold byTracks
    omega

/-- Sort invariant of `add` and `remove`: for an `Album.compare` that is a
total preorder, the albums sequence is non-decreasing after any `add` that
returns true, and `remove` applied to a non-decreasing albums sequence leaves
it non-decreasing; the artists returned by `Artist.fromMusics` have
non-decreasing albums when `Album.compare` reads only the owner and the name
of an album. -/
theorem albums_sorted (toLowerCase : JSString → JSString)
    (albumCompare : Album → Album → Int) (hpre : TotalPreorder albumCompare) :
    (∀ a album, (Artist.add albumCompare a album).1 = true →
      nonDecreasing albumCompare (Artist.add albumCompare a album).2.albums = true) ∧
    (∀ a album, nonDecreasing albumCompare a.albums = true →
      nonDecreasing albumCompare (Artist.remove a album).2.albums = true) ∧
    (ReadsKeyOnly albumCompare →
      ∀ T, ∀ a ∈ Artist.fromMusics toLowerCase albumCompare T,
        nonDecreasing albumCompare a.albums = true) := by
  refine ⟨?_, ?_, ?_⟩
  · intro a album h
    by_cases hg : album.artist ≠ a.name
    · have hr : Artist.add albumCompare a album = (false, a) := by
        unfold Artist.add
        rw [if_pos hg]
      rw [hr] at h
      exact absurd h (by simp)
    · rw [(artist_add_ok albumCompare a album (not_not.1 hg)).2.2]
      exact nonDecreasing_of_pairwise _ _ (sort_pairwise albumCompare hpre.2.1 hpre.2.2 _)
  · intro a album h
    have hp := pairwise_of_nonDecreasing albumCompare hpre.2.2 a.albums h
    by_cases hg : (a.albums.filter (fun x => decide (x.name ≠ album.name))).length =
        a.albums.length
    · have hr : Artist.remove a album = (false, a) := by
        simp only [Artist.remove, hg, if_true]
      rw [hr]; exact h
    · have hr : Artist.remove a album = (true, Artist.updateImage
          { a with albums := a.albums.filter (fun x => decide (x.name ≠ album.name)) }) := by
        simp only [Artist.remove, hg, if_false]
      rw [hr]
      simp only [artist_updateImage_albums]
      exact nonDecreasing_of_pairwise _ _ (hp.filter _)
  · intro hkey T a ha
    apply nonDecreasing_of_pairwise
    have ha2 : a ∈ Artist.collect albumCompare T := (mem_sort _ _ a).1 ha
    exact collect_forall albumCompare
      (fun a => a.albums.Pairwise (fun x y => albumCompare x y ≤ 0))
      (fun n => by simp [Artist.new])
      (fun a m h => putMusic_pairwise albumCompare hpre hkey a m h) T a ha2

theorem byName_readsKeyOnly : ReadsKeyOnly byName := by
  intro x x2 y y2 _ hx _ hy
  simp [byName, hx, hy]

/-- The sort invariant at albums ranked by name: "Help" added to an artist
holding "Revolver", and the artist built from three tracks of two albums. -/
theorem albums_sorted_witness :
    nonDecreasing byName
      (Artist.add byName ⟨js "B", [mkAlbum "B" "Revolver" none], none⟩
        (mkAlbum "B" "Help" none)).2.albums = true ∧
    nonDecreasing byName
      [⟨js "A", js "X", [mkMusic "A" "X" "1" 1 1 none, mkMusic "A" "X" "3" 2 1 none], none⟩,
        ⟨js "A", js "Y", [mkMusic "A" "Y" "2" 1 1 none], none⟩] = true :=
  ⟨(albums_sorted asciiLower byName byName_totalPreorder).1
      ⟨js "B", [mkAlbum "B" "Revolver" none], none⟩ (mkAlbum "B" "Help" none) (by decide),
    (albums_sorted asciiLower byName byName_totalPreorder).2.2 byName_readsKeyOnly
      [mkMusic "A" "Y" "2" 1 1 none, mkMusic "A" "X" "1" 1 1 none,
        mkMusic "A" "X" "3" 2 1 none]
      ⟨js "A",
        [⟨js "A", js "X", [mkMusic "A" "X" "1" 1 1 none, mkMusic "A" "X" "3" 2 1 none], none⟩,
          ⟨js "A", js "Y", [mkMusic "A" "Y" "2" 1 1 none], none⟩], none⟩ (by decide)⟩

/-- C13 fails on the code: the first track of album "X" has no picture, the
second has one. The album takes the picture as its image when the second track
is added, while the image of the artist, computed when the album was added,
stays absent. -/
theorem fromMusics_stale_image (toLowerCase : JSString → JSString)
    (albumCompare : Album → Album → Int) :
    Artist.fromMusics toLowerCase albumCompare
      [mkMusic "A" "X" "1" 1 1 none, mkMusic "A" "X" "2" 2 1 (some "cover.png")] =
      [⟨js "A", [⟨js "A", js "X",
        [mkMusic "A" "X" "1" 1 1 none, mkMusic "A" "X" "2" 2 1 (some "cover.png")],
        some (js "cover.png")⟩], none⟩] ∧
    firstPresentImage [⟨js "A", js "X",
      [mkMusic "A" "X" "1" 1 1 none, mkMusic "A" "X" "2" 2 1 (some "cover.png")],
      some (js "cover.png")⟩] = some (js "cover.png") :=
  ⟨rfl, rfl⟩

theorem sort_pair {α : Type} (cmp : α → α → Int) (x y : α) (h : cmp x y ≤ 0) :
    sort cmp [x, y] = [x, y] := by
  simp [sort, List.insertionSort, List.orderedInsert, h]

theorem compare_A_B (toLowerCase : JSString → JSString) (h : LowersAscii toLowerCase)
    (x y : Artist) (hx : x.name = js "A") (hy : y.name = js "B") :
    Artist.compare toLowerCase x y ≤ 0 := by
  have h1 : toLowerCase (js "A") = asciiLower (js "A") := h _ (by unfold isAscii; decide)
  have h2 : toLowerCase (js "B") = asciiLower (js "B") := h _ (by unfold isAscii; decide)
  simp only [Artist.compare, Artist.sortName, hx, hy, h1, h2]
  decide

/-- C14: the end-to-end scenario. With a `toLowerCase` that lower-cases ASCII
strings as JavaScript does and any `Album.compare`, `Artist.fromMusics` on the
three tracks returns exactly two artists in the order A, B; artist A has
exactly one album, "X", with the tracks titled "2", "1" in this order, and
artist B has the album "Y" with the track titled "3". -/
theorem scenario (toLowerCase : JSString → JSString) (h : LowersAscii toLowerCase)
    (albumCompare : Album → Album → Int) (p1 p2 p3 : Option Image) (d1 d2 d3 : Nat)
    (track3 disk3 : Fraction) :
    outline (Artist.fromMusics toLowerCase albumCompare
      (scenarioTracks p1 p2 p3 d1 d2 d3 track3 disk3)) =
      [(js "A", [(js "X", [js "2", js "1"])]), (js "B", [(js "Y", [js "3"])])] := by
  have key : ∀ c : List Artist, outline c =
      [(js "A", [(js "X", [js "2", js "1"])]), (js "B", [(js "Y", [js "3"])])] →
      outline (sort (Artist.compare toLowerCase) c) =
      [(js "A", [(js "X", [js "2", js "1"])]), (js "B", [(js "Y", [js "3"])])] := by
    intro c hc
    match c, hc with
    | [x, y], hc =>
      have hx : x.name = js "A" := by
        simp only [outline, List.map_cons, List.map_nil, List.cons.injEq, Prod.mk.injEq] at hc
        exact hc.1.1
      have hy : y.name = js "B" := by
        simp only [outline, List.map_cons, List.map_nil, List.cons.injEq, Prod.mk.injEq] at hc
        exact hc.2.1.1
      rw [sort_pair _ x y (compare_A_B toLowerCase h x y hx hy)]
      exact hc
    | [], hc => simp [outline] at hc
    | [_], hc => simp [outline] at hc
    | _ :: _ :: _ :: _, hc => simp [outline] at hc
  apply key
  rcases p1 with _ | _ | _ <;> rcases p2 with _ | _ <;> rcases p3 with _ | _ | _ <;> rfl

/-- Witness of C14: the scenario with ASCII lower-casing, albums ranked by
name, no pictures and the third track numbered 1 of 1 on disc 1 of 1. -/
theorem scenario_witness :
    outline (Artist.fromMusics asciiLower byName
      (scenarioTracks none none none 0 0 0 ⟨1, 1⟩ ⟨1, 1⟩)) =
      [(js "A", [(js "X", [js "2", js "1"])]), (js "B", [(js "Y", [js "3"])])] :=
  scenario asciiLower (fun _ _ => rfl) byName none none none 0 0 0 ⟨1, 1⟩ ⟨1, 1⟩

theorem grouped_names {T : List Music} {R : List Artist} (h : Grouped T R) (n : JSString) :
    n ∈ R.map Artist.name ↔ n ∈ T.map Music.artist := by
  constructor
  · intro hn
    obtain ⟨a, ha, rfl⟩ := List.mem_map.1 hn
    obtain ⟨b, hb⟩ := List.exists_mem_of_ne_nil _ (h.albums_ne a ha)
    obtain ⟨t, ht⟩ := List.exists_mem_of_ne_nil _ ((h.ok a ha).nonempty b hb)
    have h2 := ((h.ok a ha).tracks b hb).mem_iff.1 ht
    simp only [List.mem_filter, inAlbum, decide_eq_true_eq] at h2
    exact List.mem_map.2 ⟨t, h2.1, h2.2.1⟩
  · intro hn
    obtain ⟨t, ht, rfl⟩ := List.mem_map.1 hn
    obtain ⟨a, ha, hat, -⟩ := grouped_place h t ht
    exact List.mem_map.2 ⟨a, ha, hat⟩

theorem grouped_album_names {T : List Music} {R : List Artist} (h : Grouped T R)
    (a : Artist) (ha : a ∈ R) (n : JSString) :
    n ∈ a.albums.map Album.name ↔ ∃ t ∈ T, t.artist = a.name ∧ t.album = n := by
  constructor
  · intro hn
    obtain ⟨b, hb, rfl⟩ := List.mem_map.1 hn
    obtain ⟨t, ht⟩ := List.exists_mem_of_ne_nil _ ((h.ok a ha).nonempty b hb)
    have h2 := ((h.ok a ha).tracks b hb).mem_iff.1 ht
    simp only [List.mem_filter, inAlbum, decide_eq_true_eq] at h2
    exact ⟨t, h2.1, h2.2⟩
  · rintro ⟨t, ht, hta, rfl⟩
    obtain ⟨b, hb, hbn⟩ := (h.ok a ha).covered t ht hta
    exact List.mem_map.2 ⟨b, hb, hbn⟩

theorem map_eq_of_injOn {α β : Type} (f : α → β) :
    ∀ l l2 : List α, l2.map f = l.map f →
      (∀ x ∈ l, ∀ y ∈ l2, f y = f x → y = x) → l2 = l := by
  intro l
  induction l with
  | nil => intro l2 h _; simpa using h
  | cons a l ih =>
    intro l2 h hinj
    cases l2 with
    | nil => simp at h
    | cons b l2 =>
      simp only [List.map_cons, List.cons.injEq] at h
      have hab : b = a := hinj a (by simp) b (by simp) h.1
      have := ih l2 h.2 (fun x hx y hy => hinj x (by simp [hx]) y (by simp [hy]))
      rw [hab, this]

theorem map_pair_congr {γ : Type} (g : Artist → γ) :
    ∀ l l2 : List Artist, l2.map Artist.name = l.map Artist.name →
      (∀ a ∈ l, ∀ a2 ∈ l2, a2.name = a.name → g a2 = g a) →
      l2.map (fun a => (a.name, g a)) = l.map (fun a => (a.name, g a)) := by
  intro l
  induction l with
  | nil => intro l2 h _; simp at h; simp [h]
  | cons a l ih =>
    intro l2 h hg
    cases l2 with
    | nil => simp at h
    | cons b l2 =>
      simp only [List.map_cons, List.cons.injEq] at h
      have := ih l2 h.2 (fun x hx y hy => hg x (by simp [hx]) y (by simp [hy]))
      simp only [List.map_cons, this, h.1, hg a (by simp) b (by simp) h.1]

theorem sortKey_sorted (toLowerCase : JSString → JSString) (l : List Artist) :
    ((sort (Artist.compare toLowerCase) l).map
      (fun a => sortKey toLowerCase a.name)).Pairwise
      (fun k1 k2 => k1 = k2 ∨ jsLt k1 k2 = true) := by
  rw [List.pairwise_map]
  refine (sort_pairwise _ (compare_total toLowerCase) (compare_trans toLowerCase) l).imp ?_
  intro a b hab
  exact (compare_le_iff toLowerCase a b).1 hab

theorem sorted_keys_eq (l l2 : List JSString) (hp : l2.Perm l)
    (h1 : l.Pairwise (fun k1 k2 => k1 = k2 ∨ jsLt k1 k2 = true))
    (h2 : l2.Pairwise (fun k1 k2 => k1 = k2 ∨ jsLt k1 k2 = true)) : l2 = l := by
  haveI : IsAntisymm JSString (fun k1 k2 => k1 = k2 ∨ jsLt k1 k2 = true) :=
    ⟨by
      intro x y hxy hyx
      rcases hxy with hxy | hxy
      · exact hxy
      · rcases hyx with hyx | hyx
        · exact hyx.symm
        · have := jsLt_asymm x y hxy
          rw [hyx] at this
          exact absurd this (by simp)⟩
  exact List.eq_of_perm_of_sorted hp h2 h1

theorem fromMusics_albums_pairwise (toLowerCase : JSString → JSString)
    (cmp : Album → Album → Int) (hpre : TotalPreorder cmp) (hkey : ReadsKeyOnly cmp)
    (T : List Music) (a : Artist) (ha : a ∈ Artist.fromMusics toLowerCase cmp T) :
    a.albums.Pairwise (fun x y => cmp x y ≤ 0) :=
  collect_forall cmp (fun a => a.albums.Pairwise (fun x y => cmp x y ≤ 0))
    (fun n => by simp [Artist.new])
    (fun a m h => putMusic_pairwise cmp hpre hkey a m h) T a ((mem_sort _ _ a).1 ha)

theorem album_names_eq (cmp : Album → Album → Int) (hkey : ReadsKeyOnly cmp)
    (hties : NoAlbumTies cmp) (a a2 : Artist) (hname : a2.name = a.name)
    (ho : Owned a) (ho2 : Owned a2)
    (hs : a.albums.Pairwise (fun x y => cmp x y ≤ 0))
    (hs2 : a2.albums.Pairwise (fun x y => cmp x y ≤ 0))
    (hp : (a2.albums.map Album.name).Perm (a.albums.map Album.name)) :
    a2.albums.map Album.name = a.albums.map Album.name := by
  have conv : ∀ c : Artist, c.name = a.name → Owned c →
      c.albums.Pairwise (fun x y => cmp x y ≤ 0) →
      (c.albums.map Album.name).Pairwise
        (fun n1 n2 => cmp (Album.new a.name n1) (Album.new a.name n2) ≤ 0) := by
    intro c hc hoc hsc
    rw [List.pairwise_map]
    refine hsc.imp_of_mem ?_
    intro x y hx hy hxy
    rw [hkey (Album.new a.name x.name) x (Album.new a.name y.name) y
      ((hoc x hx).trans hc).symm rfl ((hoc y hy).trans hc).symm rfl]
    exact hxy
  haveI : IsAntisymm JSString
      (fun n1 n2 => cmp (Album.new a.name n1) (Album.new a.name n2) ≤ 0) :=
    ⟨fun n1 n2 h1 h2 => hties (Album.new a.name n1) (Album.new a.name n2) rfl h1 h2⟩
  exact List.eq_of_perm_of_sorted hp (conv a2 hname ho2 hs2) (conv a rfl ho hs)

/-- C15, as stated, fails. The artists "a" and "A" compare as 0 and the stable
sort leaves them in the order of their first tracks, so swapping the two
tracks swaps the artists; and with an `Album.compare` that ranks all albums
the same, swapping two tracks of one artist swaps the albums. -/
theorem fromMusics_order_counterexample :
    [mkMusic "A" "Y" "2" 1 1 none, mkMusic "a" "X" "1" 1 1 none].Perm
      [mkMusic "a" "X" "1" 1 1 none, mkMusic "A" "Y" "2" 1 1 none] ∧
    nameOutline (Artist.fromMusics asciiLower flatCompare
      [mkMusic "a" "X" "1" 1 1 none, mkMusic "A" "Y" "2" 1 1 none]) =
      [(js "a", [js "X"]), (js "A", [js "Y"])] ∧
    nameOutline (Artist.fromMusics asciiLower flatCompare
      [mkMusic "A" "Y" "2" 1 1 none, mkMusic "a" "X" "1" 1 1 none]) =
      [(js "A", [js "Y"]), (js "a", [js "X"])] ∧
    nameOutline (Artist.fromMusics asciiLower flatCompare
      [mkMusic "A" "X" "1" 1 1 none, mkMusic "A" "Y" "2" 1 1 none]) =
      [(js "A", [js "X", js "Y"])] ∧
    nameOutline (Artist.fromMusics asciiLower flatCompare
      [mkMusic "A" "Y" "2" 1 1 none, mkMusic "A" "X" "1" 1 1 none]) =
      [(js "A", [js "Y", js "X"])] ∧
    nameOutline (Artist.fromMusics asciiLower flatCompare
      [mkMusic "A" "Y" "2" 1 1 none, mkMusic "a" "X" "1" 1 1 none]) ≠
      nameOutline (Artist.fromMusics asciiLower flatCompare
        [mkMusic "a" "X" "1" 1 1 none, mkMusic "A" "Y" "2" 1 1 none]) :=
  ⟨List.Perm.swap _ _ _, by decide, by decide, by decide, by decide, by decide⟩

/-- C15, amended: for a permutation `T2` of the track list `T`, `fromMusics`
returns the same artists up to order: the artist names of the two results are
permutations of each other, artists of the same name hold the same album names
up to order, and albums of the same artist and name hold the same tracks up to
order. The sequence of artist names is the same when no two different artist
names of `T` compare as 0 under `Artist.compare`; if moreover `Album.compare`
is a total preorder that reads only the owner and the name of an album and
ranks no two different names of one owner the same, the two results have the
same artist names in the same order, each with the same sequence of album
names. -/
theorem fromMusics_order (toLowerCase : JSString → JSString)
    (albumCompare : Album → Album → Int) (T T2 : List Music) (hperm : T2.Perm T) :
    ((Artist.fromMusics toLowerCase albumCompare T2).map Artist.name).Perm
      ((Artist.fromMusics toLowerCase albumCompare T).map Artist.name) ∧
    (∀ a ∈ Artist.fromMusics toLowerCase albumCompare T,
      ∀ a2 ∈ Artist.fromMusics toLowerCase albumCompare T2, a2.name = a.name →
        (a2.albums.map Album.name).Perm (a.albums.map Album.name) ∧
        ∀ b ∈ a.albums, ∀ b2 ∈ a2.albums, b2.name = b.name → b2.musics.Perm b.musics) ∧
    (NoArtistTies toLowerCase T →
      (Artist.fromMusics toLowerCase albumCompare T2).map Artist.name =
        (Artist.fromMusics toLowerCase albumCompare T).map Artist.name) ∧
    (NoArtistTies toLowerCase T → TotalPreorder albumCompare → ReadsKeyOnly albumCompare →
      NoAlbumTies albumCompare →
      nameOutline (Artist.fromMusics toLowerCase albumCompare T2) =
        nameOutline (Artist.fromMusics toLowerCase albumCompare T)) := by
  have h := grouped_fromMusics toLowerCase albumCompare T
  have h2 := grouped_fromMusics toLowerCase albumCompare T2
  have hnames : ((Artist.fromMusics toLowerCase albumCompare T2).map Artist.name).Perm
      ((Artist.fromMusics toLowerCase albumCompare T).map Artist.name) := by
    rw [List.perm_ext_iff_of_nodup h2.nodup h.nodup]
    intro n
    rw [grouped_names h2, grouped_names h]
    exact (hperm.map Music.artist).mem_iff
  have halbums : ∀ a ∈ Artist.fromMusics toLowerCase albumCompare T,
      ∀ a2 ∈ Artist.fromMusics toLowerCase albumCompare T2, a2.name = a.name →
        (a2.albums.map Album.name).Perm (a.albums.map Album.name) := by
    intro a ha a2 ha2 hn
    rw [List.perm_ext_iff_of_nodup (h2.ok a2 ha2).nodup (h.ok a ha).nodup]
    intro n
    rw [grouped_album_names h2 a2 ha2, grouped_album_names h a ha, hn]
    constructor
    · rintro ⟨t, ht, hta⟩
      exact ⟨t, hperm.mem_iff.1 ht, hta⟩
    · rintro ⟨t, ht, hta⟩
      exact ⟨t, hperm.mem_iff.2 ht, hta⟩
  have hseq : NoArtistTies toLowerCase T →
      (Artist.fromMusics toLowerCase albumCompare T2).map Artist.name =
        (Artist.fromMusics toLowerCase albumCompare T).map Artist.name := by
    intro hties
    have hk : ((Artist.fromMusics toLowerCase albumCompare T2).map Artist.name).map
        (sortKey toLowerCase) =
        ((Artist.fromMusics toLowerCase albumCompare T).map Artist.name).map
        (sortKey toLowerCase) := by
      apply sorted_keys_eq _ _ (hnames.map _)
      · rw [List.map_map]; exact sortKey_sorted toLowerCase _
      · rw [List.map_map]; exact sortKey_sorted toLowerCase _
    apply map_eq_of_injOn (sortKey toLowerCase) _ _ hk
    intro x hx y hy hxy
    obtain ⟨t, ht, rfl⟩ := List.mem_map.1 ((grouped_names h x).1 hx)
    obtain ⟨t2, ht2, rfl⟩ := List.mem_map.1 ((grouped_names h2 y).1 hy)
    exact hties t2 (hperm.mem_iff.1 ht2) t ht hxy
  refine ⟨hnames, ?_, hseq, ?_⟩
  · intro a ha a2 ha2 hn
    refine ⟨halbums a ha a2 ha2 hn, ?_⟩
    intro b hb b2 hb2 hbn
    have t1 := (h.ok a ha).tracks b hb
    have t2 := (h2.ok a2 ha2).tracks b2 hb2
    rw [hn, hbn] at t2
    exact t2.trans ((hperm.filter _).trans t1.symm)
  · intro hties hpre hkey halb
    apply map_pair_congr (fun a => a.albums.map Album.name) _ _ (hseq hties)
    intro a ha a2 ha2 hn
    exact album_names_eq albumCompare hkey halb a a2 hn
      (h.ok a ha).owner (h2.ok a2 ha2).owner
      (fromMusics_albums_pairwise toLowerCase albumCompare hpre hkey T a ha)
      (fromMusics_albums_pairwise toLowerCase albumCompare hpre hkey T2 a2 ha2)
      (halbums a ha a2 ha2 hn)

theorem byName_noAlbumTies : NoAlbumTies byName := by
  intro x y _ hxy hyx
  rw [byName_le_iff] at hxy hyx
  rcases hxy with hxy | hxy
  · exact hxy
  · rcases hyx with hyx | hyx
    · exact hyx.symm
    · have := jsLt_asymm _ _ hxy
      rw [hyx] at this
      exact absurd this (by simp)

/-- Witness of C15: albums ranked by name; the tracks A/Z, A/A, B/Y and the
list with the first two swapped give the same artist names, and, there being
no ties, the same outline. -/
theorem fromMusics_order_witness :
    ((Artist.fromMusics asciiLower byName
      [mkMusic "A" "A" "2" 1 1 none, mkMusic "A" "Z" "1" 1 1 none,
        mkMusic "B" "Y" "3" 1 1 none]).map Artist.name).Perm
      ((Artist.fromMusics asciiLower byName
        [mkMusic "A" "Z" "1" 1 1 none, mkMusic "A" "A" "2" 1 1 none,
          mkMusic "B" "Y" "3" 1 1 none]).map Artist.name) ∧
    nameOutline (Artist.fromMusics asciiLower byName
      [mkMusic "A" "A" "2" 1 1 none, mkMusic "A" "Z" "1" 1 1 none,
        mkMusic "B" "Y" "3" 1 1 none]) =
      nameOutline (Artist.fromMusics asciiLower byName
        [mkMusic "A" "Z" "1" 1 1 none, mkMusic "A" "A" "2" 1 1 none,
          mkMusic "B" "Y" "3" 1 1 none]) :=
  ⟨(fromMusics_order asciiLower byName
      [mkMusic "A" "Z" "1" 1 1 none, mkMusic "A" "A" "2" 1 1 none,
        mkMusic "B" "Y" "3" 1 1 none]
      [mkMusic "A" "A" "2" 1 1 none, mkMusic "A" "Z" "1" 1 1 none,
        mkMusic "B" "Y" "3" 1 1 none]
      (List.Perm.swap _ _ _)).1,
    (fromMusics_order asciiLower byName
      [mkMusic "A" "Z" "1" 1 1 none, mkMusic "A" "A" "2" 1 1 none,
        mkMusic "B" "Y" "3" 1 1 none]
      [mkMusic "A" "A" "2" 1 1 none, mkMusic "A" "Z" "1" 1 1 none,
        mkMusic "B" "Y" "3" 1 1 none]
      (List.Perm.swap _ _ _)).2.2.2 (by unfold NoArtistTies; decide)
      byName_totalPreorder byName_readsKeyOnly byName_noAlbumTies⟩

end AudioPlayer
